import Mathlib

/-!
protoc-gen-goexample: the location index and the Markdown builder

A shallow embedding of `main.go`.  Go strings are Lean `String`s (texts in valid UTF-8;
the separators and the pattern `".proto"` are ASCII, so scanning by character and by byte
agree), a `[]T` is a `List T`, an `int32` path segment is an `Int`, and a run that panics
(an index or slice expression out of range) is `none`.  The receiver `runner` is passed
as its parts: the request is an argument and the response is threaded through.  Writes
to standard error (`println`, `os.Stderr.WriteString`) are observational only and are
left out.  Two things that lie outside `main.go` are arguments of the embedding: the
`String()` method of the label type (`labelString`), which the descriptor package
provides and which is given below as `labelText`, and the order in which `range` visits a
map (`rangeOrder`), which Go leaves unspecified.
-/

namespace GoExample

/-! ## Library primitives used by `main.go` -/

/-- The scanning loop of `strings.Split(s, sep)` for a one-byte separator: `cur` is the
piece being read, a separator closes it, the end of the text closes the last piece. -/
def splitLoop (sep : Char) : String → List Char → List String
  | cur, [] => [cur]
  | cur, c :: cs => if c = sep then cur :: splitLoop sep "" cs else splitLoop sep (cur.push c) cs

/-- `strings.Split(s, sep)` where `sep` is the one-byte string made of `sep`
(`"\n"`, `","` and `"="` are the only separators `main.go` uses). -/
def Split (s : String) (sep : Char) : List String :=
  splitLoop sep "" s.data

/-- The scanning loop of `strings.Replace(s, old, new, -1)` for a non-empty `old`:
`skip` counts the bytes of a matched occurrence that are still to be passed over. -/
def replaceLoop (old new : List Char) : Nat → List Char → List Char
  | _, [] => []
  | skip + 1, _ :: cs => replaceLoop old new skip cs
  | 0, c :: cs =>
    if old.isPrefixOf (c :: cs) then new ++ replaceLoop old new (old.length - 1) cs
    else c :: replaceLoop old new 0 cs

/-- `strings.Replace(s, old, new, -1)` for a non-empty `old`: every non-overlapping
occurrence of `old`, found from left to right, is replaced by `new`. -/
def Replace (s old new : String) : String :=
  String.mk (replaceLoop old.data new.data 0 s.data)

/-- The slice expression `a[:len(a)-1]`; it panics when `a` is empty
(the high bound would be `-1`). -/
def sliceDropLast {α : Type} (a : List α) : Option (List α) :=
  if a.length = 0 then none else some (a.take (a.length - 1))

/-- The index expression `a[i]` for an `int32` index: it panics on a negative index and
on an index that is not below `len(a)`. -/
def indexInt32 {α : Type} (a : List α) (i : Int) : Option α :=
  if i < 0 then none else a[i.toNat]?

/-! ## Descriptor data model (the parts `main.go` reads) -/

/-- The label (cardinality) of a field: `descriptor.FieldDescriptorProto_Label`. -/
inductive FieldDescriptorProto_Label where
  | LABEL_OPTIONAL
  | LABEL_REQUIRED
  | LABEL_REPEATED
  deriving DecidableEq, Repr

/-- A field declaration: `descriptor.FieldDescriptorProto`. -/
structure FieldDescriptorProto where
  Name : Option String
  Label : Option FieldDescriptorProto_Label
  deriving DecidableEq, Repr

/-- `GetName` of a field: the empty string when the name is not set. -/
def FieldDescriptorProto.GetName (f : FieldDescriptorProto) : String :=
  f.Name.getD ""

/-- `GetLabel` of a field: `LABEL_OPTIONAL` when the label is not set. -/
def FieldDescriptorProto.GetLabel (f : FieldDescriptorProto) : FieldDescriptorProto_Label :=
  f.Label.getD FieldDescriptorProto_Label.LABEL_OPTIONAL

/-- A message declaration: `descriptor.DescriptorProto`, with its name, its fields and
its nested message declarations. -/
inductive DescriptorProto where
  | mk (Name : Option String) (Field : List FieldDescriptorProto)
      (NestedType : List DescriptorProto)

/-- The `Name` pointer of a message. -/
def DescriptorProto.Name : DescriptorProto → Option String
  | .mk n _ _ => n

/-- The `Field` slice of a message. -/
def DescriptorProto.Field : DescriptorProto → List FieldDescriptorProto
  | .mk _ fs _ => fs

/-- The `NestedType` slice of a message. -/
def DescriptorProto.NestedType : DescriptorProto → List DescriptorProto
  | .mk _ _ ns => ns

/-- `GetName` of a message: the empty string when the name is not set. -/
def DescriptorProto.GetName (m : DescriptorProto) : String :=
  m.Name.getD ""

/-- A source location record: `descriptor.SourceCodeInfo_Location`. -/
structure SourceCodeInfo_Location where
  Path : List Int
  LeadingComments : Option String
  TrailingComments : Option String
  deriving DecidableEq, Repr

/-- `GetPath` of a location. -/
def SourceCodeInfo_Location.GetPath (l : SourceCodeInfo_Location) : List Int :=
  l.Path

/-- `GetLeadingComments` of a location: the empty string when not set. -/
def SourceCodeInfo_Location.GetLeadingComments (l : SourceCodeInfo_Location) : String :=
  l.LeadingComments.getD ""

/-- The location table of a file: `descriptor.SourceCodeInfo`. -/
structure SourceCodeInfo where
  Location : List SourceCodeInfo_Location
  deriving DecidableEq, Repr

/-- `GetLocation` on a possibly nil `*SourceCodeInfo`: no locations when nil. -/
def GetLocation (desc : Option SourceCodeInfo) : List SourceCodeInfo_Location :=
  match desc with
  | none => []
  | some d => d.Location

/-- One parsed file: `descriptor.FileDescriptorProto`. -/
structure FileDescriptorProto where
  Name : Option String
  MessageType : List DescriptorProto
  SourceCodeInfo : Option SourceCodeInfo

/-- `GetSourceCodeInfo` of a file. -/
def FileDescriptorProto.GetSourceCodeInfo (p : FileDescriptorProto) :
    Option GoExample.SourceCodeInfo :=
  p.SourceCodeInfo

/-- `GetMessageType` of a file. -/
def FileDescriptorProto.GetMessageType (p : FileDescriptorProto) : List DescriptorProto :=
  p.MessageType

/-- `GetName` of a file: the empty string when the name is not set. -/
def FileDescriptorProto.GetName (p : FileDescriptorProto) : String :=
  p.Name.getD ""

/-- The request of the compiler: `plugin.CodeGeneratorRequest`. -/
structure CodeGeneratorRequest where
  FileToGenerate : List String
  Parameter : Option String
  ProtoFile : List FileDescriptorProto

/-- One output file: `plugin.CodeGeneratorResponse_File`. -/
structure CodeGeneratorResponse_File where
  Name : Option String
  Content : Option String
  deriving DecidableEq, Repr

/-- The response to the compiler: `plugin.CodeGeneratorResponse`. -/
structure CodeGeneratorResponse where
  File : List CodeGeneratorResponse_File
  deriving DecidableEq, Repr

/-- The correlation result of `main.go`: a message with the comment lines of the
location that names it. -/
structure LocationMessage where
  Location : SourceCodeInfo_Location
  Message : DescriptorProto
  LeadingComments : List String

/-- A Go `map[string]V`, kept as its list of entries (keys distinct); the order of the
list carries no meaning. -/
abbrev GoMap (V : Type) := List (String × V)

/-- The assignment `m[k] = v`: an entry already stored under `k` is replaced. -/
def GoMap.set {V : Type} (m : GoMap V) (k : String) (v : V) : GoMap V :=
  m.filter (fun e => e.1 ≠ k) ++ [(k, v)]

/-- An order in which `range` may visit a map: some rearrangement of its entries.
Go leaves the order unspecified, so the program is read for every such order. -/
def IsRangeOrder {V : Type} (rangeOrder : GoMap V → List (String × V)) : Prop :=
  ∀ m, List.Perm (rangeOrder m) m

/-- The textual form of a field label as the program prints it: `main.go` formats
`field.GetLabel()` with the `%s` verb (lines 116 and 121), which calls `String()` of
`descriptor.FieldDescriptorProto_Label`; that method, generated code of the descriptor
package imported at line 34, returns the name of the enum constant. -/
def labelText : FieldDescriptorProto_Label → String
  | .LABEL_OPTIONAL => "LABEL_OPTIONAL"
  | .LABEL_REQUIRED => "LABEL_REQUIRED"
  | .LABEL_REPEATED => "LABEL_REPEATED"

/-! ## `getLocationMessage` -/

/-- The body of the loop over the locations of one file (lines 69-88): `none` is a
panic, otherwise the list `locationMessages` after the iteration. -/
def locationStep (proto : FileDescriptorProto) (locationMessages : List LocationMessage)
    (location : SourceCodeInfo_Location) : Option (List LocationMessage) :=
  if location.GetPath.length > 2 then some locationMessages
  else
    let leadingComments := Split location.GetLeadingComments '\n'
    if location.GetPath.length > 1 ∧ location.GetPath[0]? = some 4 then do
      let second ← location.GetPath[1]?
      let message ← indexInt32 proto.GetMessageType second
      let comments ← sliceDropLast leadingComments
      some (locationMessages ++ [⟨location, message, comments⟩])
    else some locationMessages

/-- The loop `for _, location := range locations` of one file. -/
def locationLoop (proto : FileDescriptorProto) :
    List LocationMessage → List SourceCodeInfo_Location → Option (List LocationMessage)
  | locationMessages, [] => some locationMessages
  | locationMessages, location :: rest =>
    match locationStep proto locationMessages location with
    | none => none
    | some next => locationLoop proto next rest

/-- The work done for one file (lines 65-88): the loop over its locations, started on
the empty list. -/
def fileLocationMessages (proto : FileDescriptorProto) : Option (List LocationMessage) :=
  locationLoop proto [] (GetLocation proto.GetSourceCodeInfo)

/-- The loop `for index, filename := range runner.Request.FileToGenerate`, from position
`index` on, with `ret` the map built so far. -/
def fileLoop (req : CodeGeneratorRequest) :
    Nat → GoMap (List LocationMessage) → List String → Option (GoMap (List LocationMessage))
  | _, ret, [] => some ret
  | index, ret, filename :: rest =>
    match req.ProtoFile[index]? with
    | none => none
    | some proto =>
      match fileLocationMessages proto with
      | none => none
      | some locationMessages => fileLoop req (index + 1) (ret.set filename locationMessages) rest

/-- `getLocationMessage`: the map from each requested file name to its location
messages, or `none` when the run panics. -/
def getLocationMessage (req : CodeGeneratorRequest) : Option (GoMap (List LocationMessage)) :=
  fileLoop req 0 [] req.FileToGenerate

/-! ## `CreateMarkdownFile` -/

/-- The loop writing one line per field: `fmt.Sprintf("%s - %s\n", name, label)`.
`labelString` is the `String()` method of the label type. -/
def writeFields (labelString : FieldDescriptorProto_Label → String) (buf : String)
    (fields : List FieldDescriptorProto) : String :=
  fields.foldl
    (fun buf field => buf ++ (field.GetName ++ " - " ++ labelString field.GetLabel ++ "\n")) buf

/-- The loop over the nested messages of one message (lines 112-118). -/
def writeNested (labelString : FieldDescriptorProto_Label → String) (buf : String)
    (nested : List DescriptorProto) : String :=
  nested.foldl
    (fun buf nestedMessage =>
      let buf := buf ++ ("#### " ++ nestedMessage.GetName ++ "\n")
      let buf := buf ++ ("#### " ++ "Fields" ++ "\n")
      writeFields labelString buf nestedMessage.Field) buf

/-- The loop writing the comment lines (lines 107-109). -/
def writeComments (buf : String) (comments : List String) : String :=
  comments.foldl (fun buf comment => buf ++ (comment ++ "\n")) buf

/-- The body of the loop over the location messages (lines 105-122). -/
def writeMessage (labelString : FieldDescriptorProto_Label → String) (buf : String)
    (locationMessage : LocationMessage) : String :=
  let buf := buf ++ ("\n## " ++ locationMessage.Message.GetName ++ "\n")
  let buf := buf ++ ("### " ++ "Leading Comments" ++ "\n")
  let buf := writeComments buf locationMessage.LeadingComments
  let buf :=
    if locationMessage.Message.NestedType.length > 0 then
      writeNested labelString (buf ++ ("### " ++ "Nested Messages" ++ "\n"))
        locationMessage.Message.NestedType
    else buf
  writeFields labelString buf locationMessage.Message.Field

/-- The output name of a file: `strings.Replace(filename, ".proto", ".md", -1)`. -/
def outfileName (filename : String) : String :=
  Replace filename ".proto" ".md"

/-- The text of the document of one file (lines 102-124). -/
def markdownContent (labelString : FieldDescriptorProto_Label → String) (filename : String)
    (messages : List LocationMessage) : String :=
  let buf := "" ++ ("# " ++ outfileName filename ++ "\n")
  messages.foldl (writeMessage labelString) buf

/-- `CreateMarkdownFile`: the response with the new document appended to its files. -/
def CreateMarkdownFile (labelString : FieldDescriptorProto_Label → String)
    (resp : CodeGeneratorResponse) (filename : String) (messages : List LocationMessage) :
    CodeGeneratorResponse :=
  let mdFile : CodeGeneratorResponse_File :=
    { Name := some (outfileName filename),
      Content := some (markdownContent labelString filename messages) }
  { File := resp.File ++ [mdFile] }

/-! ## `generateMessageMarkdown` and `generateCode` -/

/-- `generateMessageMarkdown`: one `CreateMarkdownFile` per entry of the map, in the
order `rangeOrder` visits it; `none` when `getLocationMessage` panics. -/
def generateMessageMarkdown (labelString : FieldDescriptorProto_Label → String)
    (rangeOrder : GoMap (List LocationMessage) → List (String × List LocationMessage))
    (req : CodeGeneratorRequest) (resp : CodeGeneratorResponse) : Option CodeGeneratorResponse :=
  match getLocationMessage req with
  | none => none
  | some fileLocationMessageMap =>
    some ((rangeOrder fileLocationMessageMap).foldl
      (fun resp entry => CreateMarkdownFile labelString resp entry.1 entry.2) resp)

/-- `generateCode`: the file list of the response is reset, then the documents are
generated. -/
def generateCode (labelString : FieldDescriptorProto_Label → String)
    (rangeOrder : GoMap (List LocationMessage) → List (String × List LocationMessage))
    (req : CodeGeneratorRequest) (resp : CodeGeneratorResponse) : Option CodeGeneratorResponse :=
  generateMessageMarkdown labelString rangeOrder req { resp with File := [] }

/-! ## Sample inputs -/

/-- The message `Person` with the optional fields `name` and `age` and no nested type. -/
def personMessage : DescriptorProto :=
  .mk (some "Person")
    [⟨some "name", some .LABEL_OPTIONAL⟩, ⟨some "age", some .LABEL_OPTIONAL⟩] []

/-- The location of `Person`: path `[4, 0]`, leading comments `"A person.\n\n"`. -/
def personLocation : SourceCodeInfo_Location :=
  ⟨[4, 0], some "A person.\n\n", none⟩

/-- The file `Person.proto`: one message, one location. -/
def personFile : FileDescriptorProto :=
  ⟨some "Person.proto", [personMessage], some ⟨[personLocation]⟩⟩

/-- The request for `Person.proto` alone. -/
def personRequest : CodeGeneratorRequest :=
  ⟨["Person.proto"], none, [personFile]⟩

/-- The file `a.proto`, imported by `b.proto`: message `A` with its location. -/
def importedFile : FileDescriptorProto :=
  ⟨some "a.proto", [.mk (some "A") [] []], some ⟨[⟨[4, 0], some "about A\n", none⟩]⟩⟩

/-- The file `b.proto`, which imports `a.proto`: message `B` with its location. -/
def importingFile : FileDescriptorProto :=
  ⟨some "b.proto", [.mk (some "B") [] []], some ⟨[⟨[4, 0], some "about B\n", none⟩]⟩⟩

/-- The request the compiler sends for `b.proto`: `FileToGenerate` names `b.proto` only,
`ProtoFile` holds the imported file first, then `b.proto` (topological order). -/
def importRequest : CodeGeneratorRequest :=
  ⟨["b.proto"], none, [importedFile, importingFile]⟩

/-- The host contract under which `getLocationMessage` does not panic: there is a
descriptor for each position of `FileToGenerate`, and in each visited descriptor every
location of path `[4, i]` has `i` within the top-level message list. -/
def HostContract (req : CodeGeneratorRequest) : Prop :=
  req.FileToGenerate.length ≤ req.ProtoFile.length ∧
  ∀ (k : Nat) (proto : FileDescriptorProto), k < req.FileToGenerate.length →
    req.ProtoFile[k]? = some proto →
    ∀ location ∈ GetLocation proto.GetSourceCodeInfo, ∀ i : Int,
      location.GetPath = [4, i] → 0 ≤ i ∧ i < (proto.GetMessageType.length : Int)

/-! ## Parameter parsing in `main` -/

/-- `GetParameter` of a request: the empty string when the parameter is not set. -/
def CodeGeneratorRequest.GetParameter (req : CodeGeneratorRequest) : String :=
  req.Parameter.getD ""

/-- The body of the loop over the comma-separated entries (lines 182-185): the entry is
split on `=`, and when there are at least two pieces the first is stored as key with the
second as value.  `none` is a panic of an index expression. -/
def parameterStep (parameters : GoMap String) (element : String) : Option (GoMap String) :=
  let kv := Split element '='
  if kv.length > 1 then do
    let key ← kv[0]?
    let value ← kv[1]?
    some (parameters.set key value)
  else some parameters

/-- The loop `for _, element := range groupkv` of `main`. -/
def parameterLoop : GoMap String → List String → Option (GoMap String)
  | parameters, [] => some parameters
  | parameters, element :: rest =>
    match parameterStep parameters element with
    | none => none
    | some next => parameterLoop next rest

/-- The parameter map `main` builds from the parameter string (lines 173-186). -/
def parseParameters (parameters : String) : Option (GoMap String) :=
  parameterLoop [] (Split parameters ',')

/-! ## Notions used to state the properties -/

/-- The text of an entry before its first `=` (the whole entry when it has none). -/
def entryKey (element : String) : String :=
  String.mk (element.data.takeWhile (fun c => c ≠ '='))

/-- The text of an entry between its first `=` and its second `=` (or its end). -/
def entryValue (element : String) : String :=
  String.mk (((element.data.dropWhile (fun c => c ≠ '=')).drop 1).takeWhile (fun c => c ≠ '='))

/-- A location names a top-level message: its path has length 2 and first segment 4. -/
def isMessageLocation (location : SourceCodeInfo_Location) : Bool :=
  decide (location.GetPath.length = 2) && decide (location.GetPath[0]? = some 4)

/-- The location message `lm` is the one of `location` in the file `proto`: it carries the
location, the message the second path segment points at, and the trimmed comment lines. -/
def Resolves (proto : FileDescriptorProto) (location : SourceCodeInfo_Location)
    (lm : LocationMessage) : Prop :=
  lm.Location = location ∧
  lm.LeadingComments = (Split location.GetLeadingComments '\n').dropLast ∧
  ∃ i : Int, location.GetPath = [4, i] ∧ 0 ≤ i ∧
    proto.GetMessageType[i.toNat]? = some lm.Message

/-- Two messages agree on their own name and fields and, one by one, on the names and
fields of their nested messages; what the nested messages nest is left free. -/
def SameFirstLevel (a b : DescriptorProto) : Prop :=
  a.Name = b.Name ∧ a.Field = b.Field ∧
  List.Forall₂ (fun x y : DescriptorProto => x.Name = y.Name ∧ x.Field = y.Field)
    a.NestedType b.NestedType

/-- Two location messages that are identical except for the nested-type lists of the
nested messages. -/
def SameUpToDeeperNesting (x y : LocationMessage) : Prop :=
  x.Location = y.Location ∧ x.LeadingComments = y.LeadingComments ∧
  SameFirstLevel x.Message y.Message

/-- The file `pair.proto`: messages `A` and `B`, with the location of `A` first. -/
def pairFile : FileDescriptorProto :=
  ⟨some "pair.proto", [.mk (some "A") [] [], .mk (some "B") [] []],
    some ⟨[⟨[4, 0], none, none⟩, ⟨[4, 1], none, none⟩]⟩⟩

/-- The request for the two files `a.proto` and `b.proto`, in this order. -/
def twoFileRequest : CodeGeneratorRequest :=
  ⟨["a.proto", "b.proto"], none, [importedFile, importingFile]⟩

/-- A message `Outer` with a nested message `Inner` that itself nests `Deep`. -/
def deepMessage : DescriptorProto :=
  .mk (some "Outer") [⟨some "id", some .LABEL_REQUIRED⟩]
    [.mk (some "Inner") [⟨some "tags", some .LABEL_REPEATED⟩]
      [.mk (some "Deep") [⟨some "x", none⟩] []]]

/-- The message `deepMessage` with the nested-type list of `Inner` emptied. -/
def shallowMessage : DescriptorProto :=
  .mk (some "Outer") [⟨some "id", some .LABEL_REQUIRED⟩]
    [.mk (some "Inner") [⟨some "tags", some .LABEL_REPEATED⟩] []]

/-- The line of one field, in words: the field name, ` - `, and the name of the enum
constant of its label (`LABEL_OPTIONAL` when the label is not set), then a newline. -/
def fieldLine (field : FieldDescriptorProto) : String :=
  match field.Label with
  | some .LABEL_REQUIRED => field.GetName ++ " - LABEL_REQUIRED\n"
  | some .LABEL_REPEATED => field.GetName ++ " - LABEL_REPEATED\n"
  | some .LABEL_OPTIONAL => field.GetName ++ " - LABEL_OPTIONAL\n"
  | none => field.GetName ++ " - LABEL_OPTIONAL\n"

/-- The file `a.proto` with message `A` and an empty location list. -/
def bareFile : FileDescriptorProto :=
  ⟨some "a.proto", [.mk (some "A") [] []], some ⟨[]⟩⟩

/-- The request for `b.proto` where `b.proto` imports the file `a.proto` that has no
location: `ProtoFile` holds `a.proto` first, then `b.proto`. -/
def bareImportRequest : CodeGeneratorRequest :=
  ⟨["b.proto"], none, [bareFile, importingFile]⟩

/-- The file `b.proto` with one message and a location of path `[4, 5]`. -/
def brokenFile : FileDescriptorProto :=
  ⟨some "b.proto", [.mk (some "B") [] []], some ⟨[⟨[4, 5], some "about B\n", none⟩]⟩⟩

/-- The request for `b.proto` where `b.proto`, which imports `a.proto`, has a location
pointing outside its message list. -/
def brokenImportRequest : CodeGeneratorRequest :=
  ⟨["b.proto"], none, [importedFile, brokenFile]⟩

/-! ## Lemmas on the library primitives -/

theorem splitLoop_length (sep : Char) (cur : String) (cs : List Char) :
    (splitLoop sep cur cs).length = cs.count sep + 1 := by
  induction cs generalizing cur with
  | nil => simp [splitLoop]
  | cons c cs ih =>
    by_cases h : c = sep
    · simp [splitLoop, h, ih]
    · have h2 : (c == sep) = false := by simpa using h
      simp [splitLoop, h, ih, List.count_cons, h2]

theorem Split_length (s : String) (sep : Char) :
    (Split s sep).length = s.data.count sep + 1 :=
  splitLoop_length sep "" s.data

theorem sliceDropLast_Split (s : String) (sep : Char) :
    sliceDropLast (Split s sep) = some (Split s sep).dropLast := by
  unfold sliceDropLast
  rw [if_neg (by rw [Split_length]; omega), List.dropLast_eq_take]

theorem indexInt32_eq_some {α : Type} (a : List α) (i : Int) (h0 : 0 ≤ i)
    (hN : i < (a.length : Int)) : ∃ x, indexInt32 a i = some x ∧ a[i.toNat]? = some x := by
  have hlt : i.toNat < a.length := by omega
  refine ⟨a[i.toNat], ?_, List.getElem?_eq_getElem hlt⟩
  unfold indexInt32
  rw [if_neg (by omega), List.getElem?_eq_getElem hlt]

theorem indexInt32_eq_none {α : Type} (a : List α) (i : Int)
    (h : i < 0 ∨ (a.length : Int) ≤ i) : indexInt32 a i = none := by
  unfold indexInt32
  by_cases hneg : i < 0
  · rw [if_pos hneg]
  · rw [if_neg hneg]
    exact List.getElem?_eq_none (by omega)

/-! ## Lemmas on `Replace` with the arguments `".proto"` and `".md"` -/

theorem replaceLoop_skip (old new : List Char) (xs rest : List Char) :
    replaceLoop old new xs.length (xs ++ rest) = replaceLoop old new 0 rest := by
  induction xs with
  | nil => rfl
  | cons x xs ih => simpa [replaceLoop] using ih

/-- An occurrence at the head of the text is replaced and scanning resumes after it. -/
theorem replaceLoop_match (rest : List Char) :
    replaceLoop ".proto".data ".md".data 0 (".proto".data ++ rest) =
      ".md".data ++ replaceLoop ".proto".data ".md".data 0 rest := by
  show replaceLoop ['.', 'p', 'r', 'o', 't', 'o'] ['.', 'm', 'd'] 0
      ('.' :: 'p' :: 'r' :: 'o' :: 't' :: 'o' :: rest) =
    ['.', 'm', 'd'] ++ replaceLoop ['.', 'p', 'r', 'o', 't', 'o'] ['.', 'm', 'd'] 0 rest
  simp [replaceLoop, List.isPrefixOf]

/-- Where no occurrence starts, the byte is copied. -/
theorem replaceLoop_copy (old new : List Char) (c : Char) (cs : List Char)
    (h : ¬ old <+: c :: cs) :
    replaceLoop old new 0 (c :: cs) = c :: replaceLoop old new 0 cs := by
  have hpre : old.isPrefixOf (c :: cs) = false := by
    rw [Bool.eq_false_iff]
    intro hp
    exact h (List.isPrefixOf_iff_prefix.mp hp)
  simp [replaceLoop, hpre]

/-- A text without any occurrence is returned as it is. -/
theorem replaceLoop_clean (old new : List Char) (a : List Char) (h : ¬ old <:+: a) :
    replaceLoop old new 0 a = a := by
  induction a with
  | nil => rfl
  | cons c a ih =>
    rw [List.infix_cons_iff, not_or] at h
    rw [replaceLoop_copy old new c a h.1, ih h.2]

/-- No occurrence of `".proto"` starts inside a non-empty piece that is free of it and is
followed by an occurrence: the pattern has its only `.` in front. -/
theorem not_prefix_before_match (a rest : List Char) (hne : a ≠ [])
    (h : ¬ ".proto".data <:+: a) : ¬ ".proto".data <+: a ++ (".proto".data ++ rest) := by
  intro hp
  rcases List.prefix_or_prefix_of_prefix hp (List.prefix_append a _) with h1 | h1
  · exact h h1.isInfix
  · have hmem := (List.mem_inits a ".proto".data).mpr h1
    have hinits : ".proto".data.inits =
        [[], ['.'], ['.', 'p'], ['.', 'p', 'r'], ['.', 'p', 'r', 'o'],
          ['.', 'p', 'r', 'o', 't'], ['.', 'p', 'r', 'o', 't', 'o']] := by decide
    rw [hinits] at hmem
    rw [← List.isPrefixOf_iff_prefix] at hp
    simp only [List.mem_cons, List.mem_singleton, List.not_mem_nil, or_false] at hmem
    rcases hmem with rfl | rfl | rfl | rfl | rfl | rfl | rfl
    · exact hne rfl
    · revert hp; simp [show ".proto".data = ['.', 'p', 'r', 'o', 't', 'o'] from rfl, List.isPrefixOf]
    · revert hp; simp [show ".proto".data = ['.', 'p', 'r', 'o', 't', 'o'] from rfl, List.isPrefixOf]
    · revert hp; simp [show ".proto".data = ['.', 'p', 'r', 'o', 't', 'o'] from rfl, List.isPrefixOf]
    · revert hp; simp [show ".proto".data = ['.', 'p', 'r', 'o', 't', 'o'] from rfl, List.isPrefixOf]
    · revert hp; simp [show ".proto".data = ['.', 'p', 'r', 'o', 't', 'o'] from rfl, List.isPrefixOf]
    · exact h (List.infix_refl _)

/-- A piece free of `".proto"` is copied up to the occurrence that follows it, which is
replaced by `".md"`. -/
theorem replaceLoop_piece (a rest : List Char) (h : ¬ ".proto".data <:+: a) :
    replaceLoop ".proto".data ".md".data 0 (a ++ (".proto".data ++ rest)) =
      a ++ (".md".data ++ replaceLoop ".proto".data ".md".data 0 rest) := by
  induction a with
  | nil => simpa using replaceLoop_match rest
  | cons c a ih =>
    have hno : ¬ ".proto".data <+: c :: (a ++ (".proto".data ++ rest)) :=
      not_prefix_before_match (c :: a) rest (by simp) h
    rw [List.infix_cons_iff, not_or] at h
    rw [List.cons_append, replaceLoop_copy _ _ c _ hno, ih h.2]
    rfl

theorem intercalate_go_append (x acc sep : String) (rest : List String) :
    String.intercalate.go (x ++ acc) sep rest = x ++ String.intercalate.go acc sep rest := by
  induction rest generalizing acc with
  | nil => rfl
  | cons a rest ih =>
    simp only [String.intercalate.go]
    rw [String.append_assoc, String.append_assoc, ← String.append_assoc acc, ih]

theorem intercalate_cons_cons (sep a b : String) (rest : List String) :
    sep.intercalate (a :: b :: rest) = a ++ sep ++ sep.intercalate (b :: rest) := by
  show String.intercalate.go (a ++ sep ++ b) sep rest = a ++ sep ++ String.intercalate.go b sep rest
  exact intercalate_go_append (a ++ sep) b sep rest

/-- The rewriting of a name cut into pieces free of `".proto"`. -/
theorem Replace_intercalate (segs : List String) (hne : segs ≠ [])
    (hclean : ∀ p ∈ segs, ¬ ".proto".data <:+: p.data) :
    Replace (".proto".intercalate segs) ".proto" ".md" = ".md".intercalate segs := by
  induction segs with
  | nil => exact absurd rfl hne
  | cons a rest ih =>
    cases rest with
    | nil =>
      show String.mk (replaceLoop ".proto".data ".md".data 0 a.data) = a
      rw [replaceLoop_clean _ _ _ (hclean a (List.mem_cons_self _ _))]
    | cons b rest =>
      have ih2 := ih (by simp) (fun p hp => hclean p (List.mem_cons_of_mem _ hp))
      rw [intercalate_cons_cons, intercalate_cons_cons, ← ih2]
      unfold Replace
      apply String.ext
      simp only [String.data_append, List.append_assoc]
      exact replaceLoop_piece a.data _ (hclean a (List.mem_cons_self _ _))

/-- Every text is a sequence of pieces free of `".proto"` with `".proto"` in between. -/
theorem exists_pieces (s : List Char) :
    ∃ segs : List String, segs ≠ [] ∧ (∀ p ∈ segs, ¬ ".proto".data <:+: p.data) ∧
      String.mk s = ".proto".intercalate segs := by
  induction s with
  | nil => exact ⟨[""], by simp, by simp, rfl⟩
  | cons c s ih =>
    obtain ⟨segs, hne, hclean, heq⟩ := ih
    cases segs with
    | nil => exact absurd rfl hne
    | cons a rest =>
      have ha := hclean a (List.mem_cons_self _ _)
      have hrest : ∀ p ∈ rest, ¬ ".proto".data <:+: p.data :=
        fun p hp => hclean p (List.mem_cons_of_mem _ hp)
      have hs : String.mk (c :: s) = String.singleton c ++ ".proto".intercalate (a :: rest) := by
        rw [← heq]; rfl
      by_cases hc : ".proto".data <:+: c :: a.data
      · have hpre : ".proto".data <+: c :: a.data := by
          rcases List.infix_cons_iff.mp hc with h1 | h1
          · exact h1
          · exact absurd h1 ha
        obtain ⟨t, ht⟩ := hpre
        have htclean : ¬ ".proto".data <:+: t := by
          intro hin
          apply ha
          have hsuf : t <:+ a.data := by
            have : c :: a.data = '.' :: ('p' :: 'r' :: 'o' :: 't' :: 'o' :: t) := ht.symm
            simp only [List.cons.injEq] at this
            exact ⟨['p', 'r', 'o', 't', 'o'], this.2.symm⟩
          exact hin.trans hsuf.isInfix
        have hca : String.singleton c ++ a = "" ++ ".proto" ++ String.mk t := by
          apply String.ext
          simpa [String.singleton] using ht.symm
        refine ⟨"" :: String.mk t :: rest, by simp, ?_, ?_⟩
        · intro p hp
          rcases List.mem_cons.mp hp with rfl | hp
          · decide
          · rcases List.mem_cons.mp hp with rfl | hp
            · exact htclean
            · exact hrest p hp
        · rw [hs, intercalate_cons_cons]
          cases rest with
          | nil =>
            show String.singleton c ++ a = _
            rw [hca]; rfl
          | cons b rest =>
            rw [intercalate_cons_cons, intercalate_cons_cons, ← String.append_assoc,
              ← String.append_assoc, hca]
            simp only [String.append_assoc]
      · refine ⟨(String.singleton c ++ a) :: rest, by simp, ?_, ?_⟩
        · intro p hp
          rcases List.mem_cons.mp hp with rfl | hp
          · simpa [String.singleton] using hc
          · exact hrest p hp
        · rw [hs]
          cases rest with
          | nil => rfl
          | cons b rest =>
            rw [intercalate_cons_cons, intercalate_cons_cons, ← String.append_assoc,
              ← String.append_assoc]

/-! ## Lemmas on the buffer loops of `CreateMarkdownFile` -/

theorem join_cons (x : String) (xs : List String) :
    String.join (x :: xs) = x ++ String.join xs := by
  have key : ∀ (ys : List String) (acc : String),
      ys.foldl (fun r s => r ++ s) acc = acc ++ ys.foldl (fun r s => r ++ s) "" := by
    intro ys
    induction ys with
    | nil => intro acc; simp
    | cons y ys ih =>
      intro acc
      simp only [List.foldl_cons]
      rw [ih (acc ++ y), ih ("" ++ y), String.empty_append, String.append_assoc]
  show (x :: xs).foldl (fun r s => r ++ s) "" = x ++ xs.foldl (fun r s => r ++ s) ""
  simp only [List.foldl_cons, String.empty_append]
  exact key xs x

/-- A loop that appends one piece of text per element writes the pieces in order. -/
theorem foldl_write {α : Type} (f : α → String) (xs : List α) (buf : String) :
    xs.foldl (fun buf x => buf ++ f x) buf = buf ++ String.join (xs.map f) := by
  induction xs generalizing buf with
  | nil => simp [String.join]
  | cons x xs ih =>
    simp only [List.foldl_cons, List.map_cons]
    rw [ih, join_cons, String.append_assoc]

theorem writeFields_eq (labelString : FieldDescriptorProto_Label → String) (buf : String)
    (fields : List FieldDescriptorProto) :
    writeFields labelString buf fields =
      buf ++ String.join
        (fields.map fun field => field.GetName ++ " - " ++ labelString field.GetLabel ++ "\n") :=
  foldl_write _ fields buf

theorem writeComments_eq (buf : String) (comments : List String) :
    writeComments buf comments = buf ++ String.join (comments.map fun comment => comment ++ "\n") :=
  foldl_write _ comments buf

theorem writeNested_eq (labelString : FieldDescriptorProto_Label → String) (buf : String)
    (nested : List DescriptorProto) :
    writeNested labelString buf nested =
      buf ++ String.join (nested.map fun nestedMessage =>
        "#### " ++ nestedMessage.GetName ++ "\n" ++ "#### Fields\n" ++
          String.join (nestedMessage.Field.map fun field =>
            field.GetName ++ " - " ++ labelString field.GetLabel ++ "\n")) := by
  rw [← foldl_write]
  unfold writeNested
  congr 1
  funext buf nestedMessage
  simp only [writeFields_eq, String.append_assoc]
  rfl

/-- The text written for one location message: heading, comment lines, the nested block
when there is a nested message, then the field lines of the message itself. -/
theorem writeMessage_eq (labelString : FieldDescriptorProto_Label → String) (buf : String)
    (locationMessage : LocationMessage) :
    writeMessage labelString buf locationMessage =
      buf ++ ("\n## " ++ locationMessage.Message.GetName ++ "\n" ++ "### Leading Comments\n" ++
        String.join (locationMessage.LeadingComments.map fun comment => comment ++ "\n") ++
        (if locationMessage.Message.NestedType.length > 0 then
          "### Nested Messages\n" ++
            String.join (locationMessage.Message.NestedType.map fun nestedMessage =>
              "#### " ++ nestedMessage.GetName ++ "\n" ++ "#### Fields\n" ++
                String.join (nestedMessage.Field.map fun field =>
                  field.GetName ++ " - " ++ labelString field.GetLabel ++ "\n"))
          else "") ++
        String.join (locationMessage.Message.Field.map fun field =>
          field.GetName ++ " - " ++ labelString field.GetLabel ++ "\n")) := by
  unfold writeMessage
  simp only [writeFields_eq, writeComments_eq, writeNested_eq]
  by_cases hpos : locationMessage.Message.NestedType.length > 0
  · simp only [hpos, if_true, String.append_assoc]
    rfl
  · simp only [hpos, if_false, String.append_assoc, String.append_empty, String.empty_append]
    rfl

/-- The text of a document: the title line, then the text of each location message. -/
theorem markdownContent_eq (labelString : FieldDescriptorProto_Label → String)
    (filename : String) (messages : List LocationMessage) :
    markdownContent labelString filename messages =
      "# " ++ outfileName filename ++ "\n" ++
        String.join (messages.map fun locationMessage =>
          writeMessage labelString "" locationMessage) := by
  have hloop : ∀ (ms : List LocationMessage) (buf : String),
      ms.foldl (writeMessage labelString) buf =
        buf ++ String.join (ms.map fun locationMessage =>
          writeMessage labelString "" locationMessage) := by
    intro ms
    induction ms with
    | nil => intro buf; simp [String.join]
    | cons m ms ih =>
      intro buf
      simp only [List.foldl_cons, List.map_cons]
      rw [ih, join_cons, writeMessage_eq, writeMessage_eq labelString "", String.empty_append,
        String.append_assoc]
  unfold markdownContent
  rw [hloop, String.empty_append]

/-! ## Lemmas on the loop over locations -/

/-- A location of path `[4, i]` is resolved by indexing the message list with `i`. -/
theorem locationStep_message (proto : FileDescriptorProto) (acc : List LocationMessage)
    (location : SourceCodeInfo_Location) (i : Int) (hpath : location.GetPath = [4, i]) :
    locationStep proto acc location =
      (indexInt32 proto.GetMessageType i).map (fun message =>
        acc ++ [⟨location, message, (Split location.GetLeadingComments '\n').dropLast⟩]) := by
  unfold locationStep
  rw [hpath]
  simp only [List.length_cons, List.length_nil]
  cases hidx : indexInt32 proto.GetMessageType i with
  | none => simp [hidx]
  | some message => simp [hidx, sliceDropLast_Split]

/-- A location that fails one of the two tests of the loop body leaves the list as it is. -/
theorem locationStep_skip (proto : FileDescriptorProto) (acc : List LocationMessage)
    (location : SourceCodeInfo_Location)
    (h : location.GetPath.length ≠ 2 ∨ location.GetPath[0]? ≠ some 4) :
    locationStep proto acc location = some acc := by
  unfold locationStep
  by_cases h2 : location.GetPath.length > 2
  · rw [if_pos h2]
  · rw [if_neg h2]
    have hcond : ¬ (location.GetPath.length > 1 ∧ location.GetPath[0]? = some 4) := by
      rintro ⟨h1, h4⟩
      rcases h with h | h
      · omega
      · exact h h4
    simp only [hcond, if_false]

theorem locationLoop_append (proto : FileDescriptorProto) (acc : List LocationMessage)
    (xs ys : List SourceCodeInfo_Location) :
    locationLoop proto acc (xs ++ ys) =
      (locationLoop proto acc xs).bind (fun mid => locationLoop proto mid ys) := by
  induction xs generalizing acc with
  | nil => simp [locationLoop]
  | cons x xs ih =>
    simp only [List.cons_append, locationLoop]
    cases locationStep proto acc x with
    | none => simp
    | some next => simpa using ih next

theorem locationStep_messageType (p q : FileDescriptorProto)
    (h : p.GetMessageType = q.GetMessageType) (acc : List LocationMessage)
    (location : SourceCodeInfo_Location) :
    locationStep p acc location = locationStep q acc location := by
  unfold locationStep
  rw [h]

theorem locationLoop_messageType (p q : FileDescriptorProto)
    (h : p.GetMessageType = q.GetMessageType) (acc : List LocationMessage)
    (ls : List SourceCodeInfo_Location) :
    locationLoop p acc ls = locationLoop q acc ls := by
  induction ls generalizing acc with
  | nil => simp [locationLoop]
  | cons l ls ih =>
    simp only [locationLoop, locationStep_messageType p q h]
    cases locationStep q acc l with
    | none => rfl
    | some next => simpa using ih next

/-- The loop only ever appends: what it returns starts with what it was given. -/
theorem locationLoop_prefix (proto : FileDescriptorProto) (acc r : List LocationMessage)
    (ls : List SourceCodeInfo_Location) (h : locationLoop proto acc ls = some r) :
    acc <+: r := by
  induction ls generalizing acc with
  | nil =>
    simp only [locationLoop, Option.some.injEq] at h
    exact h ▸ List.prefix_refl _
  | cons l ls ih =>
    simp only [locationLoop] at h
    by_cases h2 : l.GetPath.length ≠ 2 ∨ l.GetPath[0]? ≠ some 4
    · rw [locationStep_skip proto acc l h2] at h
      exact ih acc h
    · have hstep : ∃ next, locationStep proto acc l = some next := by
        cases hs : locationStep proto acc l with
        | none => rw [hs] at h; simp at h
        | some next => exact ⟨next, rfl⟩
      obtain ⟨next, hs⟩ := hstep
      rw [hs] at h
      have hpre : acc <+: next := by
        unfold locationStep at hs
        split at hs
        · simp only [Option.some.injEq] at hs; exact hs ▸ List.prefix_refl _
        · split at hs
          · simp only [Option.bind_eq_bind, Option.bind_eq_some] at hs
            obtain ⟨_, _, _, _, _, _, hfin⟩ := hs
            simp only [Option.some.injEq] at hfin
            exact hfin ▸ List.prefix_append _ _
          · simp only [Option.some.injEq] at hs; exact hs ▸ List.prefix_refl _
      exact hpre.trans (ih next h)

theorem locationLoop_none_of_mem (proto : FileDescriptorProto)
    (location : SourceCodeInfo_Location) (ls : List SourceCodeInfo_Location)
    (hmem : location ∈ ls) (hfail : ∀ acc, locationStep proto acc location = none)
    (acc : List LocationMessage) : locationLoop proto acc ls = none := by
  induction ls generalizing acc with
  | nil => simp at hmem
  | cons l ls ih =>
    simp only [locationLoop]
    rcases List.mem_cons.mp hmem with heq | htail
    · rw [← heq, hfail acc]
    · cases locationStep proto acc l with
      | none => rfl
      | some next => simpa using ih htail next

/-! ## Lemmas on the loop over files -/

/-- The loop over files sees the descriptors only through `fileLocationMessages`. -/
theorem fileLoop_congr (req req2 : CodeGeneratorRequest)
    (h : ∀ k : Nat, (req.ProtoFile[k]?).map fileLocationMessages =
      (req2.ProtoFile[k]?).map fileLocationMessages)
    (index : Nat) (ret : GoMap (List LocationMessage)) (ftg : List String) :
    fileLoop req index ret ftg = fileLoop req2 index ret ftg := by
  induction ftg generalizing index ret with
  | nil => simp [fileLoop]
  | cons filename rest ih =>
    simp only [fileLoop]
    have hk := h index
    cases h1 : req.ProtoFile[index]? with
    | none =>
      cases h2 : req2.ProtoFile[index]? with
      | none => rfl
      | some q => rw [h1, h2] at hk; simp at hk
    | some p =>
      cases h2 : req2.ProtoFile[index]? with
      | none => rw [h1, h2] at hk; simp at hk
      | some q =>
        rw [h1, h2] at hk
        simp only [Option.map_some', Option.some.injEq] at hk
        simp only [hk]
        cases fileLocationMessages q with
        | none => rfl
        | some lms => simpa using ih (index + 1) (ret.set filename lms)

/-- Replacing one descriptor by another with the same location messages does not change
the result of `getLocationMessage`. -/
theorem getLocationMessage_congr (ftg : List String) (param : Option String)
    (A B : List FileDescriptorProto) (p q : FileDescriptorProto)
    (h : fileLocationMessages p = fileLocationMessages q) :
    getLocationMessage ⟨ftg, param, A ++ p :: B⟩ = getLocationMessage ⟨ftg, param, A ++ q :: B⟩ := by
  unfold getLocationMessage
  apply fileLoop_congr
  intro k
  simp only [← List.getElem?_map, List.map_append, List.map_cons, h]

/-- A visited file whose locations make the loop panic makes the whole run panic. -/
theorem fileLoop_none_of_file (req : CodeGeneratorRequest) (k : Nat)
    (proto : FileDescriptorProto) (hfile : req.ProtoFile[k]? = some proto)
    (hnone : fileLocationMessages proto = none) (ftg : List String) (index : Nat)
    (ret : GoMap (List LocationMessage)) (hlo : index ≤ k) (hhi : k < index + ftg.length) :
    fileLoop req index ret ftg = none := by
  induction ftg generalizing index ret with
  | nil => simp at hhi; omega
  | cons filename rest ih =>
    simp only [fileLoop]
    cases h1 : req.ProtoFile[index]? with
    | none => rfl
    | some p =>
      simp only []
      cases h2 : fileLocationMessages p with
      | none => rfl
      | some lms =>
        simp only []
        have hne : index ≠ k := by
          intro heq
          subst heq
          rw [hfile] at h1
          simp only [Option.some.injEq] at h1
          subst h1
          rw [hnone] at h2
          exact absurd h2 (by simp)
        apply ih
        · omega
        · simp only [List.length_cons] at hhi
          omega

/-- A location that the loop body passes over can be removed from the location list of a
file without changing what the loop over that file returns. -/
theorem fileLocationMessages_skip (name : Option String) (msgs : List DescriptorProto)
    (pre post : List SourceCodeInfo_Location) (location : SourceCodeInfo_Location)
    (hskip : ∀ (proto : FileDescriptorProto) (acc : List LocationMessage),
      locationStep proto acc location = some acc) :
    fileLocationMessages ⟨name, msgs, some ⟨pre ++ location :: post⟩⟩ =
      fileLocationMessages ⟨name, msgs, some ⟨pre ++ post⟩⟩ := by
  unfold fileLocationMessages
  rw [locationLoop_messageType ⟨name, msgs, some ⟨pre ++ location :: post⟩⟩
    ⟨name, msgs, some ⟨pre ++ post⟩⟩ rfl]
  show locationLoop _ [] (pre ++ location :: post) = locationLoop _ [] (pre ++ post)
  rw [locationLoop_append, locationLoop_append]
  congr 1
  funext mid
  simp only [locationLoop, hskip]

/-! ## Lemmas on the map of results and on the driver -/

theorem locationLoop_isSome (proto : FileDescriptorProto)
    (ls : List SourceCodeInfo_Location)
    (h : ∀ location ∈ ls, ∀ i : Int, location.GetPath = [4, i] →
      0 ≤ i ∧ i < (proto.GetMessageType.length : Int))
    (acc : List LocationMessage) : ∃ r, locationLoop proto acc ls = some r := by
  induction ls generalizing acc with
  | nil => exact ⟨acc, rfl⟩
  | cons l ls ih =>
    have htail := fun location hm => h location (List.mem_cons_of_mem _ hm)
    simp only [locationLoop]
    by_cases hq : l.GetPath.length ≠ 2 ∨ l.GetPath[0]? ≠ some 4
    · rw [locationStep_skip proto acc l hq]
      exact ih htail acc
    · rw [not_or, not_not, not_not] at hq
      obtain ⟨hlen, hfirst⟩ := hq
      have hpath : ∃ i, l.GetPath = [4, i] := by
        generalize l.GetPath = path at hlen hfirst
        rcases path with _ | ⟨a, _ | ⟨b, _ | ⟨c, rest⟩⟩⟩
        · simp at hlen
        · simp at hlen
        · simp only [List.getElem?_cons_zero, Option.some.injEq] at hfirst
          exact ⟨b, by rw [hfirst]⟩
        · simp at hlen
      obtain ⟨i, hi⟩ := hpath
      obtain ⟨h0, hN⟩ := h l (List.mem_cons_self _ _) i hi
      obtain ⟨message, hidx, _⟩ := indexInt32_eq_some proto.GetMessageType i h0 hN
      rw [locationStep_message proto acc l i hi, hidx]
      exact ih htail _

theorem fileLoop_isSome (req : CodeGeneratorRequest)
    (hfiles : ∀ (k : Nat) (proto : FileDescriptorProto), req.ProtoFile[k]? = some proto →
      k < req.FileToGenerate.length → ∃ r, fileLocationMessages proto = some r)
    (ftg : List String) (index : Nat) (ret : GoMap (List LocationMessage))
    (hlen : index + ftg.length ≤ req.ProtoFile.length)
    (hidx : index + ftg.length ≤ req.FileToGenerate.length) :
    ∃ m, fileLoop req index ret ftg = some m := by
  induction ftg generalizing index ret with
  | nil => exact ⟨ret, rfl⟩
  | cons filename rest ih =>
    simp only [List.length_cons] at hlen hidx
    have hlt : index < req.ProtoFile.length := by omega
    simp only [fileLoop, List.getElem?_eq_getElem hlt]
    obtain ⟨r, hr⟩ := hfiles index _ (List.getElem?_eq_getElem hlt) (by omega)
    rw [hr]
    exact ih (index + 1) _ (by omega) (by omega)

/-- Under the host contract `getLocationMessage` returns a map. -/
theorem getLocationMessage_isSome (req : CodeGeneratorRequest) (hc : HostContract req) :
    ∃ m, getLocationMessage req = some m := by
  obtain ⟨hlen, hloc⟩ := hc
  refine fileLoop_isSome req ?_ req.FileToGenerate 0 [] (by omega) (by omega)
  intro k proto hk hlt
  exact locationLoop_isSome proto _ (hloc k proto hlt hk) []

theorem GoMap.keys_set {V : Type} (m : GoMap V) (k : String) (v : V) :
    (m.set k v).map Prod.fst = (m.map Prod.fst).filter (fun x => x ≠ k) ++ [k] := by
  unfold GoMap.set
  rw [List.map_append, List.filter_map]
  rfl

/-- The keys of the map built by the loop over files: pairwise distinct, and exactly the
keys it started with and the file names it went through. -/
theorem fileLoop_keys (req : CodeGeneratorRequest) (ftg : List String) (index : Nat)
    (ret m : GoMap (List LocationMessage)) (hnd : (ret.map Prod.fst).Nodup)
    (h : fileLoop req index ret ftg = some m) :
    (m.map Prod.fst).Nodup ∧ ∀ x, x ∈ m.map Prod.fst ↔ x ∈ ret.map Prod.fst ∨ x ∈ ftg := by
  induction ftg generalizing index ret with
  | nil =>
    simp only [fileLoop, Option.some.injEq] at h
    subst h
    exact ⟨hnd, by simp⟩
  | cons filename rest ih =>
    simp only [fileLoop] at h
    cases h1 : req.ProtoFile[index]? with
    | none => rw [h1] at h; simp at h
    | some proto =>
      rw [h1] at h
      simp only [] at h
      cases h2 : fileLocationMessages proto with
      | none => rw [h2] at h; simp at h
      | some lms =>
        rw [h2] at h
        simp only [] at h
        have hnd2 : ((ret.set filename lms).map Prod.fst).Nodup := by
          rw [GoMap.keys_set]
          refine List.Nodup.append (hnd.filter _) (List.nodup_singleton _) ?_
          intro x hx hx2
          simp only [List.mem_filter, decide_eq_true_eq] at hx
          exact hx.2 (List.mem_singleton.mp hx2)
        obtain ⟨hres, hmem⟩ := ih (index + 1) _ hnd2 h
        refine ⟨hres, ?_⟩
        intro x
        rw [hmem x, GoMap.keys_set]
        simp only [List.mem_append, List.mem_filter, List.mem_singleton, List.mem_cons,
          decide_eq_true_eq]
        by_cases hx : x = filename
        · simp [hx]
        · simp [hx]

/-- The files appended by the loop over the map entries. -/
theorem foldl_CreateMarkdownFile (labelString : FieldDescriptorProto_Label → String)
    (entries : List (String × List LocationMessage)) (resp : CodeGeneratorResponse) :
    (entries.foldl (fun resp entry => CreateMarkdownFile labelString resp entry.1 entry.2)
        resp).File =
      resp.File ++ entries.map (fun entry =>
        (⟨some (outfileName entry.1), some (markdownContent labelString entry.1 entry.2)⟩ :
          CodeGeneratorResponse_File)) := by
  induction entries generalizing resp with
  | nil => simp
  | cons e entries ih =>
    simp only [List.foldl_cons, List.map_cons]
    rw [ih]
    simp [CreateMarkdownFile]

/-! ## Lemmas on the result of the loops, entry by entry -/

theorem isMessageLocation_iff (location : SourceCodeInfo_Location) :
    isMessageLocation location = true ↔ ∃ i : Int, location.GetPath = [4, i] := by
  unfold isMessageLocation
  simp only [Bool.and_eq_true, decide_eq_true_eq]
  constructor
  · rintro ⟨hlen, hfirst⟩
    generalize location.GetPath = path at hlen hfirst
    rcases path with _ | ⟨a, _ | ⟨b, _ | ⟨c, rest⟩⟩⟩
    · simp at hlen
    · simp at hlen
    · simp only [List.getElem?_cons_zero, Option.some.injEq] at hfirst
      exact ⟨b, by rw [hfirst]⟩
    · simp at hlen
  · rintro ⟨i, hi⟩
    rw [hi]
    simp

theorem locationStep_not_message (proto : FileDescriptorProto) (acc : List LocationMessage)
    (location : SourceCodeInfo_Location) (h : isMessageLocation location = false) :
    locationStep proto acc location = some acc := by
  apply locationStep_skip
  unfold isMessageLocation at h
  simp only [Bool.and_eq_false_iff, decide_eq_false_iff_not] at h
  exact h

/-- When every location of path `[4, i]` is in range, the loop appends one location
message per location that names a message, in the order of the locations. -/
theorem locationLoop_resolves (proto : FileDescriptorProto)
    (ls : List SourceCodeInfo_Location)
    (h : ∀ location ∈ ls, ∀ i : Int, location.GetPath = [4, i] →
      0 ≤ i ∧ i < (proto.GetMessageType.length : Int))
    (acc : List LocationMessage) :
    ∃ r, locationLoop proto acc ls = some (acc ++ r) ∧
      List.Forall₂ (Resolves proto) (ls.filter isMessageLocation) r := by
  induction ls generalizing acc with
  | nil => exact ⟨[], by simp [locationLoop], by simp⟩
  | cons l ls ih =>
    have htail := fun location hm => h location (List.mem_cons_of_mem _ hm)
    simp only [locationLoop]
    cases hq : isMessageLocation l with
    | false =>
      rw [locationStep_not_message proto acc l hq, List.filter_cons_of_neg (by simp [hq])]
      exact ih htail acc
    | true =>
      obtain ⟨i, hi⟩ := (isMessageLocation_iff l).mp hq
      obtain ⟨h0, hN⟩ := h l (List.mem_cons_self _ _) i hi
      obtain ⟨message, hidx, hget⟩ := indexInt32_eq_some proto.GetMessageType i h0 hN
      rw [locationStep_message proto acc l i hi, hidx, List.filter_cons_of_pos hq]
      obtain ⟨r, hr, hall⟩ := ih htail
        (acc ++ [⟨l, message, (Split l.GetLeadingComments '\n').dropLast⟩])
      refine ⟨⟨l, message, (Split l.GetLeadingComments '\n').dropLast⟩ :: r, ?_, ?_⟩
      · simp only [Option.map_some']
        rw [hr, List.append_assoc]
        rfl
      · exact List.Forall₂.cons ⟨rfl, rfl, i, hi, h0, hget⟩ hall

theorem resolves_map_location (proto : FileDescriptorProto)
    (ls : List SourceCodeInfo_Location) (r : List LocationMessage)
    (h : List.Forall₂ (Resolves proto) ls r) : r.map (fun lm => lm.Location) = ls := by
  induction h with
  | nil => rfl
  | cons hhead _ ih => simp only [List.map_cons, ih, hhead.1]

/-- The entries resolved from index `j` are as many as the locations of path `[4, j]`. -/
theorem resolves_count (proto : FileDescriptorProto) (ls : List SourceCodeInfo_Location)
    (r : List LocationMessage)
    (h : List.Forall₂ (Resolves proto) (ls.filter isMessageLocation) r) (j : Int) :
    r.countP (fun lm => decide (lm.Location.GetPath = [4, j])) =
      ls.countP (fun location => decide (location.GetPath = [4, j])) := by
  have hmap := resolves_map_location proto _ r h
  have h1 : r.countP (fun lm => decide (lm.Location.GetPath = [4, j])) =
      (r.map (fun lm => lm.Location)).countP (fun location => decide (location.GetPath = [4, j])) := by
    rw [List.countP_map]
    rfl
  rw [h1, hmap, List.countP_filter]
  apply List.countP_congr
  intro location _
  simp only [Bool.and_eq_true, decide_eq_true_eq]
  constructor
  · exact fun hh => hh.1
  · intro hp
    exact ⟨hp, (isMessageLocation_iff location).mpr ⟨j, hp⟩⟩

/-- Every entry of the map built by the loop over files is the result of the loop over
the locations of the descriptor standing at the position of its file name. -/
theorem fileLoop_entries (req : CodeGeneratorRequest) (ftg : List String) (index : Nat)
    (ret m : GoMap (List LocationMessage))
    (hsuffix : ∀ j : Nat, j < ftg.length → ftg[j]? = req.FileToGenerate[index + j]?)
    (hret : ∀ entry ∈ ret, ∃ (k : Nat) (proto : FileDescriptorProto),
      req.FileToGenerate[k]? = some entry.1 ∧ req.ProtoFile[k]? = some proto ∧
        fileLocationMessages proto = some entry.2)
    (h : fileLoop req index ret ftg = some m) :
    ∀ entry ∈ m, ∃ (k : Nat) (proto : FileDescriptorProto),
      req.FileToGenerate[k]? = some entry.1 ∧ req.ProtoFile[k]? = some proto ∧
        fileLocationMessages proto = some entry.2 := by
  induction ftg generalizing index ret with
  | nil =>
    simp only [fileLoop, Option.some.injEq] at h
    subst h
    exact hret
  | cons filename rest ih =>
    simp only [fileLoop] at h
    cases h1 : req.ProtoFile[index]? with
    | none => rw [h1] at h; simp at h
    | some proto =>
      rw [h1] at h
      simp only [] at h
      cases h2 : fileLocationMessages proto with
      | none => rw [h2] at h; simp at h
      | some lms =>
        rw [h2] at h
        simp only [] at h
        refine ih (index + 1) (ret.set filename lms) ?_ ?_ h
        · intro j hj
          have := hsuffix (j + 1) (by simp only [List.length_cons]; omega)
          simp only [List.getElem?_cons_succ] at this
          rw [this]
          congr 1
          omega
        · intro entry hentry
          unfold GoMap.set at hentry
          rcases List.mem_append.mp hentry with hold | hnew
          · exact hret entry (List.mem_filter.mp hold).1
          · rw [List.mem_singleton] at hnew
            subst hnew
            have h0 := hsuffix 0 (by simp)
            simp only [List.getElem?_cons_zero, Nat.add_zero] at h0
            exact ⟨index, proto, h0.symm, h1, h2⟩

theorem getLocationMessage_entries (req : CodeGeneratorRequest)
    (m : GoMap (List LocationMessage)) (h : getLocationMessage req = some m) :
    ∀ entry ∈ m, ∃ (k : Nat) (proto : FileDescriptorProto),
      req.FileToGenerate[k]? = some entry.1 ∧ req.ProtoFile[k]? = some proto ∧
        fileLocationMessages proto = some entry.2 :=
  fileLoop_entries req req.FileToGenerate 0 [] m (by intro j _; simp) (by simp) h

theorem forall₂_map_eq {α β γ : Type} (R : α → β → Prop) (f : α → γ) (g : β → γ)
    (hR : ∀ x y, R x y → f x = g y) (xs : List α) (ys : List β)
    (h : List.Forall₂ R xs ys) : xs.map f = ys.map g := by
  induction h with
  | nil => rfl
  | cons hhead _ ih => simp only [List.map_cons, ih, hR _ _ hhead]

/-- The text written for a location message is the same for two location messages that
differ only below the first nesting level. -/
theorem writeMessage_sameUpToDeeperNesting (labelString : FieldDescriptorProto_Label → String)
    (x y : LocationMessage) (h : SameUpToDeeperNesting x y) :
    writeMessage labelString "" x = writeMessage labelString "" y := by
  obtain ⟨_, hcomments, hname, hfield, hnested⟩ := h
  have hlen : x.Message.NestedType.length = y.Message.NestedType.length := hnested.length_eq
  have hblock := forall₂_map_eq _
    (fun nestedMessage : DescriptorProto =>
      "#### " ++ nestedMessage.GetName ++ "\n" ++ "#### Fields\n" ++
        String.join (nestedMessage.Field.map fun field =>
          field.GetName ++ " - " ++ labelString field.GetLabel ++ "\n"))
    (fun nestedMessage : DescriptorProto =>
      "#### " ++ nestedMessage.GetName ++ "\n" ++ "#### Fields\n" ++
        String.join (nestedMessage.Field.map fun field =>
          field.GetName ++ " - " ++ labelString field.GetLabel ++ "\n"))
    (by
      intro a b hab
      simp only [DescriptorProto.GetName, hab.1, hab.2])
    _ _ hnested
  rw [writeMessage_eq, writeMessage_eq, hblock, hlen, hcomments, hfield]
  simp only [DescriptorProto.GetName, hname]

/-! ## Lemmas on the parameter loop of `main` -/

theorem splitLoop_head (sep : Char) (cur : String) (cs : List Char) :
    (splitLoop sep cur cs)[0]? =
      some (cur ++ String.mk (cs.takeWhile (fun c => c ≠ sep))) := by
  induction cs generalizing cur with
  | nil =>
    simp only [splitLoop, List.getElem?_cons_zero, List.takeWhile_nil, Option.some.injEq]
    apply String.ext
    simp
  | cons c cs ih =>
    by_cases h : c = sep
    · simp only [splitLoop, h, if_true, List.getElem?_cons_zero, Option.some.injEq]
      apply String.ext
      simp
    · simp only [splitLoop, h, if_false]
      rw [ih]
      congr 1
      apply String.ext
      simp [List.takeWhile_cons, h]

theorem splitLoop_second (sep : Char) (cur : String) (cs : List Char) (hmem : sep ∈ cs) :
    (splitLoop sep cur cs)[1]? =
      some (String.mk
        (((cs.dropWhile (fun c => c ≠ sep)).drop 1).takeWhile (fun c => c ≠ sep))) := by
  induction cs generalizing cur with
  | nil => simp at hmem
  | cons c cs ih =>
    by_cases h : c = sep
    · simp only [splitLoop, h, if_true, List.getElem?_cons_succ]
      rw [splitLoop_head]
      congr 1
      apply String.ext
      simp [List.dropWhile_cons]
    · simp only [splitLoop, h, if_false]
      have hmem2 : sep ∈ cs := by
        rcases List.mem_cons.mp hmem with h1 | h1
        · exact absurd h1.symm h
        · exact h1
      rw [ih _ hmem2]
      simp [List.dropWhile_cons, h]

/-- An entry without `=` leaves the map as it is. -/
theorem parameterStep_plain (m : GoMap String) (element : String)
    (h : '=' ∉ element.data) : parameterStep m element = some m := by
  unfold parameterStep
  have hlen : (Split element '=').length = 1 := by
    rw [Split_length, List.count_eq_zero_of_not_mem h]
  simp [hlen]

/-- An entry with `=` stores the text before its first `=` as key, with the text up to
the next `=` as value. -/
theorem parameterStep_pair (m : GoMap String) (element : String)
    (h : '=' ∈ element.data) :
    parameterStep m element = some (m.set (entryKey element) (entryValue element)) := by
  unfold parameterStep
  have hlen : (Split element '=').length > 1 := by
    rw [Split_length]
    have := List.count_pos_iff.mpr h
    omega
  have h0 : (Split element '=')[0]? = some (entryKey element) := by
    unfold Split entryKey
    rw [splitLoop_head]
    simp
  have h1 : (Split element '=')[1]? = some (entryValue element) := by
    unfold Split entryValue
    rw [splitLoop_second _ _ _ h]
  simp [hlen, h0, h1]

theorem GoMap.mem_set {V : Type} (m : GoMap V) (k : String) (v : V) (entry : String × V) :
    entry ∈ m.set k v ↔ (entry ∈ m ∧ entry.1 ≠ k) ∨ entry = (k, v) := by
  unfold GoMap.set
  simp [List.mem_filter]

/-- The map after the loop over the entries: an association is in it when it was there
before and no entry overrides its key, or when it comes from an entry that no later entry
overrides. -/
theorem parameterLoop_spec (elems : List String) (m0 : GoMap String) :
    ∃ m, parameterLoop m0 elems = some m ∧
      ((m0.map Prod.fst).Nodup → (m.map Prod.fst).Nodup) ∧
      (∀ k, k ∈ m.map Prod.fst ↔
        k ∈ m0.map Prod.fst ∨ ∃ element ∈ elems, '=' ∈ element.data ∧ entryKey element = k) ∧
      (∀ k v, (k, v) ∈ m ↔
        ((k, v) ∈ m0 ∧ ∀ element ∈ elems, '=' ∈ element.data → entryKey element ≠ k) ∨
        ∃ pre element post, elems = pre ++ element :: post ∧ '=' ∈ element.data ∧
          entryKey element = k ∧ entryValue element = v ∧
          ∀ later ∈ post, '=' ∈ later.data → entryKey later ≠ k) := by
  induction elems generalizing m0 with
  | nil =>
    refine ⟨m0, rfl, id, by simp, ?_⟩
    intro k v
    simp
  | cons e es ih =>
    simp only [parameterLoop]
    by_cases he : '=' ∈ e.data
    · rw [parameterStep_pair m0 e he]
      obtain ⟨m, hm, hnd, hkeys, hmem⟩ := ih (m0.set (entryKey e) (entryValue e))
      refine ⟨m, hm, ?_, ?_, ?_⟩
      · intro h0
        apply hnd
        rw [GoMap.keys_set]
        refine List.Nodup.append (h0.filter _) (List.nodup_singleton _) ?_
        intro x hx hx2
        simp only [List.mem_filter, decide_eq_true_eq] at hx
        exact hx.2 (List.mem_singleton.mp hx2)
      · intro k
        rw [hkeys k, GoMap.keys_set]
        simp only [List.mem_append, List.mem_filter, List.mem_singleton, List.mem_cons,
          decide_eq_true_eq, exists_eq_or_imp]
        by_cases hk : k = entryKey e
        · simp [hk, he]
        · have hk2 : ¬ entryKey e = k := fun h => hk h.symm
          simp [hk, hk2]
      · intro k v
        rw [hmem k v, GoMap.mem_set]
        constructor
        · rintro (⟨(⟨hin, hne⟩ | heq), hlater⟩ | ⟨pre, element, post, hsplit, h1, h2, h3, h4⟩)
          · left
            refine ⟨hin, ?_⟩
            intro element helem
            rcases List.mem_cons.mp helem with rfl | helem
            · intro _ hkey
              exact hne hkey.symm
            · exact hlater element helem
          · right
            simp only [Prod.mk.injEq] at heq
            exact ⟨[], e, es, rfl, he, heq.1.symm, heq.2.symm, hlater⟩
          · right
            exact ⟨e :: pre, element, post, by rw [hsplit]; rfl, h1, h2, h3, h4⟩
        · rintro (⟨hin, hall⟩ | ⟨pre, element, post, hsplit, h1, h2, h3, h4⟩)
          · left
            refine ⟨Or.inl ⟨hin, ?_⟩, fun element helem => hall element (List.mem_cons_of_mem _ helem)⟩
            intro hkey
            exact hall e (List.mem_cons_self _ _) he hkey.symm
          · rcases pre with _ | ⟨p, pre⟩
            · simp only [List.nil_append, List.cons.injEq] at hsplit
              obtain ⟨rfl, rfl⟩ := hsplit
              left
              exact ⟨Or.inr (by rw [h2, h3]), h4⟩
            · simp only [List.cons_append, List.cons.injEq] at hsplit
              obtain ⟨rfl, hsplit⟩ := hsplit
              right
              exact ⟨pre, element, post, hsplit, h1, h2, h3, h4⟩
    · rw [parameterStep_plain m0 e he]
      obtain ⟨m, hm, hnd, hkeys, hmem⟩ := ih m0
      refine ⟨m, hm, hnd, ?_, ?_⟩
      · intro k
        rw [hkeys k]
        simp only [List.mem_cons, exists_eq_or_imp]
        simp [he]
      · intro k v
        rw [hmem k v]
        constructor
        · rintro (⟨hin, hlater⟩ | ⟨pre, element, post, hsplit, h1, h2, h3, h4⟩)
          · left
            refine ⟨hin, ?_⟩
            intro element helem
            rcases List.mem_cons.mp helem with rfl | helem
            · intro h
              exact absurd h he
            · exact hlater element helem
          · right
            exact ⟨e :: pre, element, post, by rw [hsplit]; rfl, h1, h2, h3, h4⟩
        · rintro (⟨hin, hall⟩ | ⟨pre, element, post, hsplit, h1, h2, h3, h4⟩)
          · left
            exact ⟨hin, fun element helem => hall element (List.mem_cons_of_mem _ helem)⟩
          · rcases pre with _ | ⟨p, pre⟩
            · simp only [List.nil_append, List.cons.injEq] at hsplit
              obtain ⟨rfl, rfl⟩ := hsplit
              exact absurd h1 he
            · simp only [List.cons_append, List.cons.injEq] at hsplit
              obtain ⟨rfl, hsplit⟩ := hsplit
              right
              exact ⟨pre, element, post, hsplit, h1, h2, h3, h4⟩

/-! ## Lemmas on the comment lines and on the rewritten name -/

/-- Writing the pieces of a split but the last, each followed by a newline, gives back
the text up to and including its last newline. -/
theorem splitLoop_round_trip (cur : String) (cs : List Char) (hcur : '\n' ∉ cur.data) :
    ∃ rest : String, '\n' ∉ rest.data ∧
      String.join ((splitLoop '\n' cur cs).dropLast.map fun comment => comment ++ "\n") ++ rest =
        cur ++ String.mk cs ∧
      (String.join ((splitLoop '\n' cur cs).dropLast.map fun comment => comment ++ "\n") = "" ∨
        ∃ p : String,
          String.join ((splitLoop '\n' cur cs).dropLast.map fun comment => comment ++ "\n") =
            p ++ "\n") := by
  induction cs generalizing cur with
  | nil =>
    refine ⟨cur, hcur, ?_, Or.inl ?_⟩
    · simp only [splitLoop, List.dropLast_single, List.map_nil]
      apply String.ext
      simp [String.join]
    · simp [splitLoop, String.join]
  | cons c cs ih =>
    by_cases h : c = '\n'
    · obtain ⟨rest, hrest, hjoin, hend⟩ := ih "" (by simp)
      have hne : splitLoop '\n' "" cs ≠ [] := by
        intro hnil
        have := splitLoop_length '\n' "" cs
        rw [hnil] at this
        simp at this
      have hsplit : (splitLoop '\n' cur (c :: cs)).dropLast =
          cur :: (splitLoop '\n' "" cs).dropLast := by
        simp only [splitLoop, h, if_true]
        exact List.dropLast_cons_of_ne_nil hne
      rw [hsplit]
      simp only [List.map_cons, join_cons]
      refine ⟨rest, hrest, ?_, Or.inr ?_⟩
      · rw [String.append_assoc, hjoin]
        apply String.ext
        simp [h]
      · rcases hend with hnil | ⟨p, hp⟩
        · exact ⟨cur, by rw [hnil, String.append_empty]⟩
        · exact ⟨cur ++ "\n" ++ p, by rw [hp]; simp only [String.append_assoc]⟩
    · have hpush : '\n' ∉ (cur.push c).data := by
        simp only [String.data_push, List.mem_append, List.mem_singleton, not_or]
        exact ⟨hcur, fun hh => h hh.symm⟩
      obtain ⟨rest, hrest, hjoin, hend⟩ := ih (cur.push c) hpush
      have hsplit : splitLoop '\n' cur (c :: cs) = splitLoop '\n' (cur.push c) cs := by
        simp only [splitLoop, h, if_false]
      rw [hsplit]
      refine ⟨rest, hrest, ?_, hend⟩
      rw [hjoin]
      apply String.ext
      simp

/-- No occurrence of `".proto"` starts inside a piece that is free of it and is followed
by `".md"`. -/
theorem not_prefix_before_md (a rest : List Char) (h : ¬ ".proto".data <:+: a) :
    ¬ ".proto".data <+: a ++ (".md".data ++ rest) := by
  intro hp
  rcases List.prefix_or_prefix_of_prefix hp (List.prefix_append a _) with h1 | h1
  · exact h h1.isInfix
  · have hmem := (List.mem_inits a ".proto".data).mpr h1
    have hinits : ".proto".data.inits =
        [[], ['.'], ['.', 'p'], ['.', 'p', 'r'], ['.', 'p', 'r', 'o'],
          ['.', 'p', 'r', 'o', 't'], ['.', 'p', 'r', 'o', 't', 'o']] := by decide
    rw [hinits] at hmem
    rw [← List.isPrefixOf_iff_prefix] at hp
    simp only [List.mem_cons, List.mem_singleton, List.not_mem_nil, or_false] at hmem
    have hpat : ".proto".data = ['.', 'p', 'r', 'o', 't', 'o'] := rfl
    have hnew : ".md".data = ['.', 'm', 'd'] := rfl
    rcases hmem with rfl | rfl | rfl | rfl | rfl | rfl | rfl
    · revert hp; simp [hpat, hnew, List.isPrefixOf]
    · revert hp; simp [hpat, hnew, List.isPrefixOf]
    · revert hp; simp [hpat, hnew, List.isPrefixOf]
    · revert hp; simp [hpat, hnew, List.isPrefixOf]
    · revert hp; simp [hpat, hnew, List.isPrefixOf]
    · revert hp; simp [hpat, hnew, List.isPrefixOf]
    · exact h (List.infix_refl _)

/-- Putting `".md"` between two texts free of `".proto"` creates no occurrence. -/
theorem not_infix_piece_md (a rest : List Char) (h : ¬ ".proto".data <:+: a)
    (hrest : ¬ ".proto".data <:+: rest) : ¬ ".proto".data <:+: a ++ (".md".data ++ rest) := by
  induction a with
  | nil =>
    show ¬ ".proto".data <:+: '.' :: 'm' :: 'd' :: rest
    have h0 := not_prefix_before_md [] rest (by simp)
    have h1 : ¬ ".proto".data <+: 'm' :: 'd' :: rest := by
      rw [← List.isPrefixOf_iff_prefix]
      simp [show ".proto".data = ['.', 'p', 'r', 'o', 't', 'o'] from rfl, List.isPrefixOf]
    have h2 : ¬ ".proto".data <+: 'd' :: rest := by
      rw [← List.isPrefixOf_iff_prefix]
      simp [show ".proto".data = ['.', 'p', 'r', 'o', 't', 'o'] from rfl, List.isPrefixOf]
    rw [List.infix_cons_iff, List.infix_cons_iff, List.infix_cons_iff]
    rintro (hh | hh | hh | hh)
    · exact h0 hh
    · exact h1 hh
    · exact h2 hh
    · exact hrest hh
  | cons c a ih =>
    have hno := not_prefix_before_md (c :: a) rest h
    rw [List.infix_cons_iff, not_or] at h
    rw [List.cons_append, List.infix_cons_iff]
    rintro (hh | hh)
    · exact hno hh
    · exact ih h.2 hh

theorem not_infix_intercalate_md (segs : List String)
    (hclean : ∀ p ∈ segs, ¬ ".proto".data <:+: p.data) :
    ¬ ".proto".data <:+: (".md".intercalate segs).data := by
  induction segs with
  | nil => decide
  | cons a rest ih =>
    cases rest with
    | nil => exact hclean a (List.mem_cons_self _ _)
    | cons b rest =>
      have ih2 := ih (fun p hp => hclean p (List.mem_cons_of_mem _ hp))
      rw [intercalate_cons_cons]
      simp only [String.data_append, List.append_assoc]
      exact not_infix_piece_md a.data _ (hclean a (List.mem_cons_self _ _)) ih2

/-- The rewritten name holds no occurrence of `".proto"`. -/
theorem outfileName_clean (filename : String) :
    ¬ ".proto".data <:+: (outfileName filename).data := by
  obtain ⟨segs, hne, hclean, heq⟩ := exists_pieces filename.data
  have hname : filename = ".proto".intercalate segs := heq
  unfold outfileName
  rw [hname, Replace_intercalate segs hne hclean]
  exact not_infix_intercalate_md segs hclean

/-! ## Lemmas on what the map holds under a file name -/

/-- An entry whose key is not among the file names still to be visited stays in the map. -/
theorem fileLoop_keeps (req : CodeGeneratorRequest) (ftg : List String) (index : Nat)
    (ret m : GoMap (List LocationMessage)) (h : fileLoop req index ret ftg = some m)
    (entry : String × List LocationMessage) (hin : entry ∈ ret) (hkey : entry.1 ∉ ftg) :
    entry ∈ m := by
  induction ftg generalizing index ret with
  | nil =>
    simp only [fileLoop, Option.some.injEq] at h
    exact h ▸ hin
  | cons filename rest ih =>
    simp only [fileLoop] at h
    cases h1 : req.ProtoFile[index]? with
    | none => rw [h1] at h; simp at h
    | some proto =>
      rw [h1] at h
      simp only [] at h
      cases h2 : fileLocationMessages proto with
      | none => rw [h2] at h; simp at h
      | some lms =>
        rw [h2] at h
        simp only [] at h
        rw [List.mem_cons, not_or] at hkey
        exact ih (index + 1) _ h ((GoMap.mem_set ret filename lms entry).mpr
          (Or.inl ⟨hin, hkey.1⟩)) hkey.2

/-- The list produced for the descriptor at the position of a file name is what the map
holds under that name, when the name is not visited again later. -/
theorem fileLoop_stores (req : CodeGeneratorRequest) (ftg : List String) (index : Nat)
    (ret m : GoMap (List LocationMessage)) (k : Nat) (filename : String)
    (proto : FileDescriptorProto) (lms : List LocationMessage)
    (h : fileLoop req index ret ftg = some m) (hk : ftg[k]? = some filename)
    (hlast : filename ∉ ftg.drop (k + 1)) (hfile : req.ProtoFile[index + k]? = some proto)
    (hres : fileLocationMessages proto = some lms) : (filename, lms) ∈ m := by
  induction ftg generalizing index ret k with
  | nil => simp at hk
  | cons f rest ih =>
    simp only [fileLoop] at h
    cases h1 : req.ProtoFile[index]? with
    | none => rw [h1] at h; simp at h
    | some p =>
      rw [h1] at h
      simp only [] at h
      cases h2 : fileLocationMessages p with
      | none => rw [h2] at h; simp at h
      | some lms2 =>
        rw [h2] at h
        simp only [] at h
        cases k with
        | zero =>
          simp only [List.getElem?_cons_zero, Option.some.injEq] at hk
          subst hk
          simp only [Nat.add_zero] at hfile
          rw [h1] at hfile
          simp only [Option.some.injEq] at hfile
          subst hfile
          rw [h2] at hres
          simp only [Option.some.injEq] at hres
          subst hres
          have hrest : f ∉ rest := by simpa using hlast
          exact fileLoop_keeps req rest (index + 1) _ m h (f, lms2)
            ((GoMap.mem_set ret f lms2 (f, lms2)).mpr (Or.inr rfl)) hrest
        | succ k =>
          simp only [List.getElem?_cons_succ] at hk
          have hlast2 : filename ∉ rest.drop (k + 1) := by simpa using hlast
          have hfile2 : req.ProtoFile[index + 1 + k]? = some proto := by
            rw [← hfile]
            congr 1
            omega
          exact ih (index + 1) _ k h hk hlast2 hfile2

/-- Under the host contract the map returned by `getLocationMessage` holds, under the name
of a descriptor that stands at the position of its own name (a name not listed again
later), the list produced by the loop over that descriptor; its keys are distinct. -/
theorem getLocationMessage_stores (req : CodeGeneratorRequest) (k : Nat)
    (proto : FileDescriptorProto) (hc : HostContract req)
    (hname : req.FileToGenerate[k]? = some proto.GetName)
    (hfile : req.ProtoFile[k]? = some proto)
    (hlast : proto.GetName ∉ req.FileToGenerate.drop (k + 1)) :
    ∃ m lms, getLocationMessage req = some m ∧ (m.map Prod.fst).Nodup ∧
      (proto.GetName, lms) ∈ m ∧ fileLocationMessages proto = some lms ∧
      List.Forall₂ (Resolves proto)
        ((GetLocation proto.GetSourceCodeInfo).filter isMessageLocation) lms := by
  obtain ⟨m, hm⟩ := getLocationMessage_isSome req hc
  have hk : k < req.FileToGenerate.length := by
    rcases List.getElem?_eq_some.mp hname with ⟨hlt, _⟩
    exact hlt
  obtain ⟨lms, hlms, hall⟩ := locationLoop_resolves proto _ (hc.2 k proto hk hfile) []
  have hnd := (fileLoop_keys req req.FileToGenerate 0 [] m (by simp) hm).1
  refine ⟨m, lms, hm, hnd, ?_, hlms, hall⟩
  exact fileLoop_stores req req.FileToGenerate 0 [] m k proto.GetName proto lms hm hname hlast
    (by rw [Nat.zero_add]; exact hfile) hlms

/-- The request for `Person.proto` meets the host contract. -/
theorem personRequest_hostContract : HostContract personRequest := by
  refine ⟨by decide, ?_⟩
  intro k proto hk hfile location hmem i hpath
  have hk0 : k = 0 := by
    simp only [personRequest, List.length_singleton] at hk
    omega
  subst hk0
  simp only [personRequest, List.getElem?_cons_zero, Option.some.injEq] at hfile
  subst hfile
  simp only [personFile, GetLocation, FileDescriptorProto.GetSourceCodeInfo,
    List.mem_singleton] at hmem
  subst hmem
  simp only [personLocation, SourceCodeInfo_Location.GetPath, List.cons.injEq,
    true_and, and_true] at hpath
  subst hpath
  decide

/-! ## The claims -/

/-- C1, counterexample: in the request for `b.proto`, which imports `a.proto`, the
descriptor of `b.proto` has one top-level message `B` and the location `[4, 0]`, in range;
yet the map returned by `getLocationMessage` holds a single location message, the one of
the location and message `A` of `a.proto`: none is produced for the location of `B`.
Likewise when only `a.proto` is requested and the descriptor of `b.proto` follows it in
`ProtoFile`: the file that is not requested gets no location message. -/
theorem index_resolution_counterexample :
    importRequest.ProtoFile = [importedFile, importingFile] ∧
      GetLocation importingFile.GetSourceCodeInfo = [⟨[4, 0], some "about B\n", none⟩] ∧
      importingFile.GetMessageType = [.mk (some "B") [] []] ∧
      getLocationMessage importRequest =
        some [("b.proto",
          [⟨⟨[4, 0], some "about A\n", none⟩, .mk (some "A") [] [], ["about A"]⟩])] ∧
      (⟨[4, 0], some "about A\n", none⟩ : SourceCodeInfo_Location) ≠
        ⟨[4, 0], some "about B\n", none⟩ ∧
      DescriptorProto.GetName (.mk (some "A") [] []) ≠
        DescriptorProto.GetName (.mk (some "B") [] []) ∧
      getLocationMessage ⟨["a.proto"], none, [importedFile, importingFile]⟩ =
        some [("a.proto",
          [⟨⟨[4, 0], some "about A\n", none⟩, .mk (some "A") [] [], ["about A"]⟩])] :=
  ⟨rfl, rfl, rfl, rfl, by decide, by decide, rfl⟩

/-- C1, amended (index resolution): for a request that meets the host contract and a file
descriptor, with `N` top-level messages, that stands in `ProtoFile` at the position where
its own name stands in `FileToGenerate` (the name not being listed again later), a
location in its location list whose path is exactly `[4, i]` with `0 ≤ i < N` is resolved
to the `i`-th top-level message: the loop body appends a `LocationMessage` holding that
message, `getLocationMessage` returns a map that holds under the file's name the list
produced by the loop over the descriptor, and in that list the entry sits right after the
entries of the earlier locations. -/
theorem index_resolution (req : CodeGeneratorRequest) (k : Nat) (proto : FileDescriptorProto)
    (pre post : List SourceCodeInfo_Location) (location : SourceCodeInfo_Location) (i : Int)
    (hc : HostContract req)
    (hname : req.FileToGenerate[k]? = some proto.GetName)
    (hfile : req.ProtoFile[k]? = some proto)
    (hlast : proto.GetName ∉ req.FileToGenerate.drop (k + 1))
    (hloc : GetLocation proto.GetSourceCodeInfo = pre ++ location :: post)
    (hpath : location.GetPath = [4, i]) (h0 : 0 ≤ i)
    (hN : i < (proto.GetMessageType.length : Int)) :
    ∃ message m lms acc, proto.GetMessageType[i.toNat]? = some message ∧
      (∀ acc2, locationStep proto acc2 location =
        some (acc2 ++ [⟨location, message, (Split location.GetLeadingComments '\n').dropLast⟩])) ∧
      getLocationMessage req = some m ∧ (m.map Prod.fst).Nodup ∧
      (proto.GetName, lms) ∈ m ∧
      fileLocationMessages proto = some lms ∧
      locationLoop proto [] pre = some acc ∧
      lms[acc.length]? =
        some ⟨location, message, (Split location.GetLeadingComments '\n').dropLast⟩ := by
  obtain ⟨message, hidx, hget⟩ := indexInt32_eq_some proto.GetMessageType i h0 hN
  have hstep : ∀ acc2, locationStep proto acc2 location =
      some (acc2 ++ [⟨location, message, (Split location.GetLeadingComments '\n').dropLast⟩]) := by
    intro acc2
    rw [locationStep_message proto acc2 location i hpath, hidx]
    rfl
  obtain ⟨m, lms, hm, hnd, hmem, hlms, _⟩ := getLocationMessage_stores req k proto hc hname hfile hlast
  have hr := hlms
  unfold fileLocationMessages at hr
  rw [hloc, locationLoop_append] at hr
  cases hpre : locationLoop proto [] pre with
  | none => rw [hpre] at hr; simp at hr
  | some acc =>
    rw [hpre] at hr
    simp only [Option.some_bind, locationLoop, hstep acc] at hr
    refine ⟨message, m, lms, acc, hget, hstep, hm, hnd, hmem, hlms, rfl, ?_⟩
    obtain ⟨t, ht⟩ := locationLoop_prefix proto _ lms post hr
    rw [← ht, List.append_assoc, List.getElem?_append_right (Nat.le_refl _)]
    simp

/-- Witness of the amended C1 on the request for `Person.proto`. -/
theorem index_resolution_witness :
    ∃ message m lms acc, personFile.GetMessageType[(0 : Int).toNat]? = some message ∧
      (∀ acc2, locationStep personFile acc2 personLocation =
        some (acc2 ++
          [⟨personLocation, message, (Split personLocation.GetLeadingComments '\n').dropLast⟩])) ∧
      getLocationMessage personRequest = some m ∧ (m.map Prod.fst).Nodup ∧
      (personFile.GetName, lms) ∈ m ∧
      fileLocationMessages personFile = some lms ∧
      locationLoop personFile [] [] = some acc ∧
      lms[acc.length]? =
        some ⟨personLocation, message,
          (Split personLocation.GetLeadingComments '\n').dropLast⟩ :=
  index_resolution personRequest 0 personFile [] [] personLocation 0
    personRequest_hostContract rfl rfl (by simp [personRequest]) rfl rfl (by decide) (by decide)

/-- C2 (comment trimming): for a location of path `[4, i]` with `i` in range and leading
comments `t`, the comment lines of the resulting `LocationMessage` are the pieces of `t`
split on the newline with the last piece dropped; there are as many of them as `t` has
newline characters; `"a\nb\n"` gives `["a", "b"]` and `""` gives `[]`. -/
theorem comment_trimming (proto : FileDescriptorProto) (acc : List LocationMessage)
    (t : String) (trailing : Option String) (i : Int) (h0 : 0 ≤ i)
    (hN : i < (proto.GetMessageType.length : Int)) :
    ∃ lm, locationStep proto acc ⟨[4, i], some t, trailing⟩ = some (acc ++ [lm]) ∧
      lm.LeadingComments = (Split t '\n').dropLast ∧
      lm.LeadingComments.length = t.data.count '\n' ∧
      (t = "a\nb\n" → lm.LeadingComments = ["a", "b"]) ∧
      (t = "" → lm.LeadingComments = []) := by
  obtain ⟨message, hidx, _⟩ := indexInt32_eq_some proto.GetMessageType i h0 hN
  refine ⟨⟨⟨[4, i], some t, trailing⟩, message, (Split t '\n').dropLast⟩, ?_, rfl, ?_, ?_, ?_⟩
  · rw [locationStep_message proto acc ⟨[4, i], some t, trailing⟩ i rfl, hidx]
    rfl
  · simp [Split_length]
  · intro ht
    subst ht
    show (Split "a\nb\n" '\n').dropLast = ["a", "b"]
    decide
  · intro ht
    subst ht
    show (Split "" '\n').dropLast = []
    decide

/-- Witness of C2 on the file `Person.proto`, whose comment text has two newlines. -/
theorem comment_trimming_witness :
    ∃ lm, locationStep personFile [] ⟨[4, 0], some "A person.\n\n", none⟩ = some ([] ++ [lm]) ∧
      lm.LeadingComments = (Split "A person.\n\n" '\n').dropLast ∧
      lm.LeadingComments.length = "A person.\n\n".data.count '\n' ∧
      ("A person.\n\n" = "a\nb\n" → lm.LeadingComments = ["a", "b"]) ∧
      ("A person.\n\n" = "" → lm.LeadingComments = []) :=
  comment_trimming personFile [] "A person.\n\n" none 0 (by decide) (by decide)

/-- C5, counterexample: in the request for `b.proto`, which imports `a.proto`, the
descriptor of `b.proto` has one top-level message and a location of path `[4, 5]`, on
which the loop over that descriptor would panic; yet `generateCode` does not abort: it
reads only the descriptor at position 0 and returns a response with the document `b.md`.
Likewise when only `a.proto` is requested and that descriptor of `b.proto` follows it in
`ProtoFile`: the file that is not requested is not examined and `a.md` is returned. -/
theorem out_of_range_fails_counterexample :
    brokenImportRequest.ProtoFile = [importedFile, brokenFile] ∧
      GetLocation brokenFile.GetSourceCodeInfo = [⟨[4, 5], some "about B\n", none⟩] ∧
      brokenFile.GetMessageType.length = 1 ∧
      fileLocationMessages brokenFile = none ∧
      generateCode labelText id brokenImportRequest ⟨[]⟩ =
        some ⟨[⟨some "b.md", some "# b.md\n\n## A\n### Leading Comments\nabout A\n"⟩]⟩ ∧
      generateCode labelText id ⟨["a.proto"], none, [importedFile, brokenFile]⟩ ⟨[]⟩ =
        some ⟨[⟨some "a.md", some "# a.md\n\n## A\n### Leading Comments\nabout A\n"⟩]⟩ :=
  ⟨rfl, rfl, rfl, rfl, by decide, by decide⟩

/-- C5, amended (structural contract violation fails fast): when a file descriptor that
`getLocationMessage` visits (it stands in `ProtoFile` at a position below the number of
requested files) has a location of path `[4, i]` with `i` negative or not below the
number of its top-level messages, the loop body panics on that record instead of passing
over it, the loop over the file panics, `getLocationMessage` panics, and `generateCode`
produces no response. -/
theorem out_of_range_fails (labelString : FieldDescriptorProto_Label → String)
    (rangeOrder : GoMap (List LocationMessage) → List (String × List LocationMessage))
    (req : CodeGeneratorRequest) (resp : CodeGeneratorResponse) (k : Nat)
    (proto : FileDescriptorProto) (location : SourceCodeInfo_Location) (i : Int)
    (hk : k < req.FileToGenerate.length) (hfile : req.ProtoFile[k]? = some proto)
    (hmem : location ∈ GetLocation proto.GetSourceCodeInfo)
    (hpath : location.GetPath = [4, i])
    (hout : i < 0 ∨ (proto.GetMessageType.length : Int) ≤ i) :
    (∀ acc, locationStep proto acc location = none) ∧
      fileLocationMessages proto = none ∧
      getLocationMessage req = none ∧
      generateCode labelString rangeOrder req resp = none := by
  have hstep : ∀ acc, locationStep proto acc location = none := by
    intro acc
    rw [locationStep_message proto acc location i hpath,
      indexInt32_eq_none proto.GetMessageType i hout]
    rfl
  have hfileNone : fileLocationMessages proto = none :=
    locationLoop_none_of_mem proto location _ hmem hstep []
  have hget : getLocationMessage req = none :=
    fileLoop_none_of_file req k proto hfile hfileNone req.FileToGenerate 0 []
      (Nat.zero_le k) (by omega)
  refine ⟨hstep, hfileNone, hget, ?_⟩
  unfold generateCode generateMessageMarkdown
  rw [hget]

/-- Witness of the amended C5: `Person.proto` with a location of path `[4, 1]` and one
message. -/
theorem out_of_range_fails_witness :
    (∀ acc, locationStep ⟨some "Person.proto", [personMessage], some ⟨[⟨[4, 1], none, none⟩]⟩⟩
        acc ⟨[4, 1], none, none⟩ = none) ∧
      fileLocationMessages
        ⟨some "Person.proto", [personMessage], some ⟨[⟨[4, 1], none, none⟩]⟩⟩ = none ∧
      getLocationMessage ⟨["Person.proto"], none,
        [⟨some "Person.proto", [personMessage], some ⟨[⟨[4, 1], none, none⟩]⟩⟩]⟩ = none ∧
      generateCode labelText id ⟨["Person.proto"], none,
        [⟨some "Person.proto", [personMessage], some ⟨[⟨[4, 1], none, none⟩]⟩⟩]⟩ ⟨[]⟩ = none :=
  out_of_range_fails labelText id
    ⟨["Person.proto"], none,
      [⟨some "Person.proto", [personMessage], some ⟨[⟨[4, 1], none, none⟩]⟩⟩]⟩ ⟨[]⟩ 0
    ⟨some "Person.proto", [personMessage], some ⟨[⟨[4, 1], none, none⟩]⟩⟩ ⟨[4, 1], none, none⟩ 1
    (by decide) rfl (by simp [GetLocation, FileDescriptorProto.GetSourceCodeInfo]) rfl
    (Or.inr (by decide))

/-- C6 (depth filter): a location whose path has length 0, or 3 or more, contributes no
`LocationMessage`: the loop body returns the list unchanged, and the result of
`getLocationMessage` (a panic included) is the one obtained with that location removed
from the location list of its file. -/
theorem depth_filter (ftg : List String) (param : Option String)
    (A B : List FileDescriptorProto) (name : Option String) (msgs : List DescriptorProto)
    (pre post : List SourceCodeInfo_Location) (location : SourceCodeInfo_Location)
    (h : location.GetPath.length = 0 ∨ 3 ≤ location.GetPath.length) :
    (∀ (proto : FileDescriptorProto) (acc : List LocationMessage),
        locationStep proto acc location = some acc) ∧
      getLocationMessage ⟨ftg, param, A ++ ⟨name, msgs, some ⟨pre ++ location :: post⟩⟩ :: B⟩ =
        getLocationMessage ⟨ftg, param, A ++ ⟨name, msgs, some ⟨pre ++ post⟩⟩ :: B⟩ := by
  have hskip : ∀ (proto : FileDescriptorProto) (acc : List LocationMessage),
      locationStep proto acc location = some acc := by
    intro proto acc
    exact locationStep_skip proto acc location (Or.inl (by omega))
  exact ⟨hskip, getLocationMessage_congr ftg param A B _ _
    (fileLocationMessages_skip name msgs pre post location hskip)⟩

/-- Witness of C6: a location of path `[4, 0, 2]` put before the location of `Person`. -/
theorem depth_filter_witness :
    (∀ (proto : FileDescriptorProto) (acc : List LocationMessage),
        locationStep proto acc ⟨[4, 0, 2], some "x\n", none⟩ = some acc) ∧
      getLocationMessage ⟨["Person.proto"], none,
          [] ++ ⟨some "Person.proto", [personMessage],
            some ⟨[] ++ ⟨[4, 0, 2], some "x\n", none⟩ :: [personLocation]⟩⟩ :: []⟩ =
        getLocationMessage ⟨["Person.proto"], none,
          [] ++ ⟨some "Person.proto", [personMessage], some ⟨[] ++ [personLocation]⟩⟩ :: []⟩ :=
  depth_filter ["Person.proto"] none [] [] (some "Person.proto") [personMessage] []
    [personLocation] ⟨[4, 0, 2], some "x\n", none⟩ (Or.inr (by decide))

/-- C7 (kind filter): a location whose path has at least two segments, the first of them
not `4`, contributes no `LocationMessage`: the loop body returns the list unchanged
whatever the second segment is (it is not used as an index, so it cannot cause a panic),
and the result of `getLocationMessage` is the one obtained with that location removed. -/
theorem kind_filter (ftg : List String) (param : Option String)
    (A B : List FileDescriptorProto) (name : Option String) (msgs : List DescriptorProto)
    (pre post : List SourceCodeInfo_Location) (location : SourceCodeInfo_Location)
    (first second : Int) (more : List Int)
    (hpath : location.GetPath = first :: second :: more) (hfirst : first ≠ 4) :
    (∀ (proto : FileDescriptorProto) (acc : List LocationMessage),
        locationStep proto acc location = some acc) ∧
      getLocationMessage ⟨ftg, param, A ++ ⟨name, msgs, some ⟨pre ++ location :: post⟩⟩ :: B⟩ =
        getLocationMessage ⟨ftg, param, A ++ ⟨name, msgs, some ⟨pre ++ post⟩⟩ :: B⟩ := by
  have hskip : ∀ (proto : FileDescriptorProto) (acc : List LocationMessage),
      locationStep proto acc location = some acc := by
    intro proto acc
    refine locationStep_skip proto acc location (Or.inr ?_)
    rw [hpath]
    simpa using hfirst
  exact ⟨hskip, getLocationMessage_congr ftg param A B _ _
    (fileLocationMessages_skip name msgs pre post location hskip)⟩

/-- Witness of C7: a location of path `[5, 7]` (an enum, with a second segment that is
out of range for the message list) put before the location of `Person`. -/
theorem kind_filter_witness :
    (∀ (proto : FileDescriptorProto) (acc : List LocationMessage),
        locationStep proto acc ⟨[5, 7], some "x\n", none⟩ = some acc) ∧
      getLocationMessage ⟨["Person.proto"], none,
          [] ++ ⟨some "Person.proto", [personMessage],
            some ⟨[] ++ ⟨[5, 7], some "x\n", none⟩ :: [personLocation]⟩⟩ :: []⟩ =
        getLocationMessage ⟨["Person.proto"], none,
          [] ++ ⟨some "Person.proto", [personMessage], some ⟨[] ++ [personLocation]⟩⟩ :: []⟩ :=
  kind_filter ["Person.proto"] none [] [] (some "Person.proto") [personMessage] []
    [personLocation] ⟨[5, 7], some "x\n", none⟩ 5 7 [] rfl (by decide)

/-- C8 (output naming is a global substitution): the name `CreateMarkdownFile` gives to
the document is `outfileName` of the file name; every file name is a sequence of pieces
free of `".proto"` with `".proto"` between them, and for every such cutting the output
name is the same pieces with `".md"` between them, so every occurrence is replaced and
not only a trailing one; `"foo.proto"` gives `"foo.md"` and `"a.proto.proto"` gives
`"a.md.md"`. -/
theorem output_naming_global :
    (∀ (labelString : FieldDescriptorProto_Label → String) (resp : CodeGeneratorResponse)
        (filename : String) (messages : List LocationMessage),
      (CreateMarkdownFile labelString resp filename messages).File.map (fun f => f.Name) =
        resp.File.map (fun f => f.Name) ++ [some (outfileName filename)]) ∧
    (∀ filename : String, ∃ segs : List String, segs ≠ [] ∧
      (∀ p ∈ segs, ¬ ".proto".data <:+: p.data) ∧ filename = ".proto".intercalate segs) ∧
    (∀ segs : List String, segs ≠ [] → (∀ p ∈ segs, ¬ ".proto".data <:+: p.data) →
      outfileName (".proto".intercalate segs) = ".md".intercalate segs) ∧
    outfileName "foo.proto" = "foo.md" ∧
    outfileName "a.proto.proto" = "a.md.md" := by
  refine ⟨?_, ?_, ?_, by decide, by decide⟩
  · intro labelString resp filename messages
    simp [CreateMarkdownFile]
  · intro filename
    exact exists_pieces filename.data
  · intro segs hne hclean
    exact Replace_intercalate segs hne hclean

/-- C9, counterexample: the line written for the optional field `name` is
`name - LABEL_OPTIONAL`, not `name - optional`; likewise a required and a repeated field
are written with `LABEL_REQUIRED` and `LABEL_REPEATED`. -/
theorem field_line_format_counterexample :
    writeFields labelText "" [⟨some "name", some .LABEL_OPTIONAL⟩] = "name - LABEL_OPTIONAL\n" ∧
      writeFields labelText "" [⟨some "name", some .LABEL_OPTIONAL⟩] ≠ "name - optional\n" ∧
      writeFields labelText "" [⟨some "id", some .LABEL_REQUIRED⟩] ≠ "id - required\n" ∧
      writeFields labelText "" [⟨some "tags", some .LABEL_REPEATED⟩] ≠ "tags - repeated\n" := by
  decide

/-- C9, amended (field line format): the loop over fields writes, for each field in
order, one line made of the field name, ` - ` and the name of the enum constant of the
field's label (`LABEL_OPTIONAL`, `LABEL_REQUIRED` or `LABEL_REPEATED`), and nothing else;
the text written for a location message holds these lines for each directly nested
message inside the nested block and for the message itself at the end of its section. -/
theorem field_line_format :
    (∀ (buf : String) (fields : List FieldDescriptorProto),
      writeFields labelText buf fields = buf ++ String.join (fields.map fieldLine)) ∧
    (∀ (buf : String) (locationMessage : LocationMessage),
      writeMessage labelText buf locationMessage =
        buf ++ ("\n## " ++ locationMessage.Message.GetName ++ "\n" ++ "### Leading Comments\n" ++
          String.join (locationMessage.LeadingComments.map fun comment => comment ++ "\n") ++
          (if locationMessage.Message.NestedType.length > 0 then
            "### Nested Messages\n" ++
              String.join (locationMessage.Message.NestedType.map fun nestedMessage =>
                "#### " ++ nestedMessage.GetName ++ "\n" ++ "#### Fields\n" ++
                  String.join (nestedMessage.Field.map fieldLine))
            else "") ++
          String.join (locationMessage.Message.Field.map fieldLine))) ∧
    (∀ (filename : String) (messages : List LocationMessage),
      markdownContent labelText filename messages =
        "# " ++ outfileName filename ++ "\n" ++
          String.join (messages.map fun locationMessage =>
            "\n## " ++ locationMessage.Message.GetName ++ "\n" ++ "### Leading Comments\n" ++
            String.join (locationMessage.LeadingComments.map fun comment => comment ++ "\n") ++
            (if locationMessage.Message.NestedType.length > 0 then
              "### Nested Messages\n" ++
                String.join (locationMessage.Message.NestedType.map fun nestedMessage =>
                  "#### " ++ nestedMessage.GetName ++ "\n" ++ "#### Fields\n" ++
                    String.join (nestedMessage.Field.map fieldLine))
              else "") ++
            String.join (locationMessage.Message.Field.map fieldLine))) := by
  have hline : (fun field : FieldDescriptorProto =>
      field.GetName ++ " - " ++ labelText field.GetLabel ++ "\n") = fieldLine := by
    funext field
    rcases field with ⟨name, label⟩
    rcases label with _ | label
    · simp only [fieldLine, FieldDescriptorProto.GetLabel, Option.getD, labelText,
        String.append_assoc]
      rfl
    · cases label <;>
        simp only [fieldLine, FieldDescriptorProto.GetLabel, Option.getD, labelText,
          String.append_assoc] <;> rfl
  have hmessage : ∀ (buf : String) (locationMessage : LocationMessage),
      writeMessage labelText buf locationMessage =
        buf ++ ("\n## " ++ locationMessage.Message.GetName ++ "\n" ++ "### Leading Comments\n" ++
          String.join (locationMessage.LeadingComments.map fun comment => comment ++ "\n") ++
          (if locationMessage.Message.NestedType.length > 0 then
            "### Nested Messages\n" ++
              String.join (locationMessage.Message.NestedType.map fun nestedMessage =>
                "#### " ++ nestedMessage.GetName ++ "\n" ++ "#### Fields\n" ++
                  String.join (nestedMessage.Field.map fieldLine))
            else "") ++
          String.join (locationMessage.Message.Field.map fieldLine)) := by
    intro buf locationMessage
    rw [writeMessage_eq, hline]
  refine ⟨?_, hmessage, ?_⟩
  · intro buf fields
    rw [writeFields_eq, hline]
  · intro filename messages
    rw [markdownContent_eq]
    congr 2
    apply List.map_congr_left
    intro locationMessage _
    rw [hmessage, String.empty_append]

/-- C3, counterexample: on the `Person` scenario the comment text `"A person.\n\n"` has
two newlines, so the location message keeps two comment lines, `A person.` and an empty
one, and the fields are written with the label `LABEL_OPTIONAL`; the document is not a
title followed by a section whose comment block is the single line `A person.` and whose
field lines are `name - optional` and `age - optional`. -/
theorem person_scenario_counterexample :
    getLocationMessage personRequest =
        some [("Person.proto", [⟨personLocation, personMessage, ["A person.", ""]⟩])] ∧
      generateCode labelText id personRequest ⟨[]⟩ =
        some ⟨[⟨some "Person.md", some
          "# Person.md\n\n## Person\n### Leading Comments\nA person.\n\nname - LABEL_OPTIONAL\nage - LABEL_OPTIONAL\n"⟩]⟩ ∧
      ¬ ∃ title : String, generateCode labelText id personRequest ⟨[]⟩ =
        some ⟨[⟨some "Person.md", some (title ++
          "\n## Person\n### Leading Comments\nA person.\nname - optional\nage - optional\n")⟩]⟩ := by
  have hrun : generateCode labelText id personRequest ⟨[]⟩ =
      some ⟨[⟨some "Person.md", some
        "# Person.md\n\n## Person\n### Leading Comments\nA person.\n\nname - LABEL_OPTIONAL\nage - LABEL_OPTIONAL\n"⟩]⟩ := by
    decide
  refine ⟨rfl, hrun, ?_⟩
  rintro ⟨title, h⟩
  rw [hrun] at h
  simp only [Option.some.injEq, CodeGeneratorResponse.mk.injEq, List.cons.injEq,
    CodeGeneratorResponse_File.mk.injEq, true_and, and_true] at h
  have hsuffix :
      "\n## Person\n### Leading Comments\nA person.\nname - optional\nage - optional\n".data <:+
        "# Person.md\n\n## Person\n### Leading Comments\nA person.\n\nname - LABEL_OPTIONAL\nage - LABEL_OPTIONAL\n".data := by
    rw [h]
    exact ⟨title.data, by simp⟩
  revert hsuffix
  decide

/-- C3, amended: on the `Person` scenario, whatever the order of the map range and the
previous content of the response, the response holds the single document `Person.md`
whose body is the title line, the `## Person` heading, the `### Leading Comments` section
with the line `A person.` followed by one empty line, then `name - LABEL_OPTIONAL` and
`age - LABEL_OPTIONAL`, with no nested messages section. -/
theorem person_scenario
    (rangeOrder : GoMap (List LocationMessage) → List (String × List LocationMessage))
    (resp : CodeGeneratorResponse) (horder : IsRangeOrder rangeOrder) :
    generateCode labelText rangeOrder personRequest resp =
      some ⟨[⟨some "Person.md", some
        "# Person.md\n\n## Person\n### Leading Comments\nA person.\n\nname - LABEL_OPTIONAL\nage - LABEL_OPTIONAL\n"⟩]⟩ := by
  have hget : getLocationMessage personRequest =
      some [("Person.proto", [⟨personLocation, personMessage, ["A person.", ""]⟩])] := rfl
  have hvisit := List.perm_singleton.mp (horder
    [("Person.proto", [⟨personLocation, personMessage, ["A person.", ""]⟩])])
  unfold generateCode generateMessageMarkdown
  rw [hget]
  simp only [hvisit, List.foldl_cons, List.foldl_nil, CreateMarkdownFile, List.nil_append]
  have hname : outfileName "Person.proto" = "Person.md" := by decide
  have hbody : markdownContent labelText "Person.proto"
      [⟨personLocation, personMessage, ["A person.", ""]⟩] =
      "# Person.md\n\n## Person\n### Leading Comments\nA person.\n\nname - LABEL_OPTIONAL\nage - LABEL_OPTIONAL\n" := by
    decide
  rw [hname, hbody]

/-- Witness of the amended C3, with the range visiting the entries as stored. -/
theorem person_scenario_witness :
    generateCode labelText id personRequest ⟨[]⟩ =
      some ⟨[⟨some "Person.md", some
        "# Person.md\n\n## Person\n### Leading Comments\nA person.\n\nname - LABEL_OPTIONAL\nage - LABEL_OPTIONAL\n"⟩]⟩ :=
  person_scenario id ⟨[]⟩ (fun _ => List.Perm.refl _)

/-- C4, the code at the failing input: for the request of `b.proto`, which imports
`a.proto`, the descriptor of `b.proto` documents `B`, yet the entry stored under
`b.proto` and the document named `b.md` hold the message and the comments of `a.proto`,
the descriptor standing at position 0 of `ProtoFile`. -/
theorem document_of_other_unit :
    importingFile.GetName = "b.proto" ∧
      fileLocationMessages importingFile =
        some [⟨⟨[4, 0], some "about B\n", none⟩, .mk (some "B") [] [], ["about B"]⟩] ∧
      getLocationMessage importRequest =
        some [("b.proto",
          [⟨⟨[4, 0], some "about A\n", none⟩, .mk (some "A") [] [], ["about A"]⟩])] ∧
      generateCode labelText id importRequest ⟨[]⟩ =
        some ⟨[⟨some "b.md", some "# b.md\n\n## A\n### Leading Comments\nabout A\n"⟩]⟩ := by
  refine ⟨by decide, rfl, rfl, by decide⟩

/-- C10, counterexample: a request naming a file for which `ProtoFile` has no
descriptor makes `generateCode` panic, so there is no response at all; and a request
naming `a.proto` twice gets a response with one output file, not two. -/
theorem one_document_per_file_counterexample :
    generateCode labelText id ⟨["a.proto"], none, []⟩ ⟨[]⟩ = none ∧
      generateCode labelText id
          ⟨["a.proto", "a.proto"], none, [importedFile, importedFile]⟩ ⟨[]⟩ =
        some ⟨[⟨some "a.md", some "# a.md\n\n## A\n### Leading Comments\nabout A\n"⟩]⟩ ∧
      ¬ List.Perm [some "a.md"] (["a.proto", "a.proto"].map fun f => some (outfileName f)) := by
  refine ⟨by decide, by decide, ?_⟩
  intro h
  have := h.length_eq
  simp at this

/-- C10, amended: for a request that meets the host contract, whatever the order of the
map range, `generateCode` returns a response whose file list (the previous one is
discarded) holds exactly one generated Markdown file per distinct name of
`FileToGenerate`, each named by the rewriting of that name and built by
`CreateMarkdownFile` from the entry stored under that name; when the names of
`FileToGenerate` are pairwise distinct this is one file per entry. -/
theorem one_document_per_file (labelString : FieldDescriptorProto_Label → String)
    (rangeOrder : GoMap (List LocationMessage) → List (String × List LocationMessage))
    (req : CodeGeneratorRequest) (resp : CodeGeneratorResponse)
    (horder : IsRangeOrder rangeOrder) (hc : HostContract req) :
    ∃ m resp2, getLocationMessage req = some m ∧
      generateCode labelString rangeOrder req resp = some resp2 ∧
      List.Perm (resp2.File.map fun f => f.Name)
        (req.FileToGenerate.dedup.map fun f => some (outfileName f)) ∧
      (∀ f ∈ resp2.File, ∃ entry ∈ m, f =
        ⟨some (outfileName entry.1), some (markdownContent labelString entry.1 entry.2)⟩) ∧
      (req.FileToGenerate.Nodup →
        List.Perm (resp2.File.map fun f => f.Name)
          (req.FileToGenerate.map fun f => some (outfileName f))) := by
  obtain ⟨m, hm⟩ := getLocationMessage_isSome req hc
  obtain ⟨hnd, hmem⟩ := fileLoop_keys req req.FileToGenerate 0 [] m (by simp) hm
  have hrun : generateCode labelString rangeOrder req resp =
      some ((rangeOrder m).foldl
        (fun resp entry => CreateMarkdownFile labelString resp entry.1 entry.2)
        { resp with File := [] }) := by
    unfold generateCode generateMessageMarkdown
    rw [hm]
  have hkeys : List.Perm (m.map Prod.fst) req.FileToGenerate.dedup := by
    rw [List.perm_ext_iff_of_nodup hnd (List.nodup_dedup _)]
    intro x
    rw [hmem x, List.mem_dedup]
    simp
  have hnames : List.Perm
      (((rangeOrder m).foldl
        (fun resp entry => CreateMarkdownFile labelString resp entry.1 entry.2)
        { resp with File := [] }).File.map fun f => f.Name)
      (req.FileToGenerate.dedup.map fun f => some (outfileName f)) := by
    rw [foldl_CreateMarkdownFile]
    simp only [List.nil_append, List.map_map]
    have h1 : List.Perm ((rangeOrder m).map
        ((fun f : CodeGeneratorResponse_File => f.Name) ∘ fun entry =>
          (⟨some (outfileName entry.1), some (markdownContent labelString entry.1 entry.2)⟩ :
            CodeGeneratorResponse_File)))
        ((m.map Prod.fst).map fun f => some (outfileName f)) := by
      rw [List.map_map]
      exact (horder m).map _
    exact h1.trans (hkeys.map _)
  refine ⟨m, _, hm, hrun, hnames, ?_, ?_⟩
  · intro f hf
    rw [foldl_CreateMarkdownFile] at hf
    simp only [List.nil_append, List.mem_map] at hf
    obtain ⟨entry, hentry, hfe⟩ := hf
    exact ⟨entry, (horder m).mem_iff.mp hentry, hfe.symm⟩
  · intro hnodup
    rw [← hnodup.dedup]
    exact hnames

/-- Witness of the amended C10 on the request for `Person.proto`. -/
theorem one_document_per_file_witness :
    ∃ m resp2, getLocationMessage personRequest = some m ∧
      generateCode labelText id personRequest ⟨[]⟩ = some resp2 ∧
      List.Perm (resp2.File.map fun f => f.Name)
        (personRequest.FileToGenerate.dedup.map fun f => some (outfileName f)) ∧
      (∀ f ∈ resp2.File, ∃ entry ∈ m, f =
        ⟨some (outfileName entry.1), some (markdownContent labelText entry.1 entry.2)⟩) ∧
      (personRequest.FileToGenerate.Nodup →
        List.Perm (resp2.File.map fun f => f.Name)
          (personRequest.FileToGenerate.map fun f => some (outfileName f))) :=
  one_document_per_file labelText id personRequest ⟨[]⟩ (fun _ => List.Perm.refl _)
    ⟨by decide, by
      intro k proto hk hfile location hmem i hpath
      have hk0 : k = 0 := by
        simp only [personRequest, List.length_singleton] at hk
        omega
      subst hk0
      simp only [personRequest, List.getElem?_cons_zero, Option.some.injEq] at hfile
      subst hfile
      simp only [personFile, GetLocation, FileDescriptorProto.GetSourceCodeInfo,
        List.mem_singleton] at hmem
      subst hmem
      simp only [personLocation, SourceCodeInfo_Location.GetPath, List.cons.injEq,
        true_and, and_true] at hpath
      subst hpath
      decide⟩

/-- C11 (section order follows location encounter order): for a file whose locations of
path `[4, i]` all have `i` in range, the location messages are those of the locations
naming a message, one each and in the order of the location list, and the body of the
document is the title line followed by one section per location message in that same
order, each section starting with the heading `## <name of its message>`; for the
messages `[A, B]` with locations `[4, 0]` then `[4, 1]` the section of `A` precedes the
section of `B`. -/
theorem section_order (labelString : FieldDescriptorProto_Label → String) (filename : String)
    (proto : FileDescriptorProto)
    (hrange : ∀ location ∈ GetLocation proto.GetSourceCodeInfo, ∀ i : Int,
      location.GetPath = [4, i] → 0 ≤ i ∧ i < (proto.GetMessageType.length : Int)) :
    ∃ lms, fileLocationMessages proto = some lms ∧
      List.Forall₂ (Resolves proto)
        ((GetLocation proto.GetSourceCodeInfo).filter isMessageLocation) lms ∧
      markdownContent labelString filename lms =
        "# " ++ outfileName filename ++ "\n" ++
          String.join (lms.map fun lm => writeMessage labelString "" lm) ∧
      (∀ lm : LocationMessage, ∃ tail : String, writeMessage labelString "" lm =
        "\n## " ++ lm.Message.GetName ++ "\n" ++ "### Leading Comments\n" ++ tail) ∧
      generateCode labelText id ⟨["pair.proto"], none, [pairFile]⟩ ⟨[]⟩ =
        some ⟨[⟨some "pair.md", some
          "# pair.md\n\n## A\n### Leading Comments\n\n## B\n### Leading Comments\n"⟩]⟩ := by
  obtain ⟨r, hr, hall⟩ := locationLoop_resolves proto _ hrange []
  refine ⟨r, hr, hall, markdownContent_eq labelString filename r, ?_, by decide⟩
  intro lm
  rw [writeMessage_eq, String.empty_append]
  simp only [String.append_assoc]
  exact ⟨_, rfl⟩

/-- Witness of C11 on the file `pair.proto`. -/
theorem section_order_witness :
    ∃ lms, fileLocationMessages pairFile = some lms ∧
      List.Forall₂ (Resolves pairFile)
        ((GetLocation pairFile.GetSourceCodeInfo).filter isMessageLocation) lms ∧
      markdownContent labelText "pair.proto" lms =
        "# " ++ outfileName "pair.proto" ++ "\n" ++
          String.join (lms.map fun lm => writeMessage labelText "" lm) ∧
      (∀ lm : LocationMessage, ∃ tail : String, writeMessage labelText "" lm =
        "\n## " ++ lm.Message.GetName ++ "\n" ++ "### Leading Comments\n" ++ tail) ∧
      generateCode labelText id ⟨["pair.proto"], none, [pairFile]⟩ ⟨[]⟩ =
        some ⟨[⟨some "pair.md", some
          "# pair.md\n\n## A\n### Leading Comments\n\n## B\n### Leading Comments\n"⟩]⟩ :=
  section_order labelText "pair.proto" pairFile (by
    intro location hmem i hpath
    simp only [pairFile, GetLocation, FileDescriptorProto.GetSourceCodeInfo, List.mem_cons,
      List.mem_singleton, List.not_mem_nil, or_false] at hmem
    rcases hmem with rfl | rfl
    · simp only [SourceCodeInfo_Location.GetPath, List.cons.injEq, true_and, and_true] at hpath
      subst hpath
      decide
    · simp only [SourceCodeInfo_Location.GetPath, List.cons.injEq, true_and, and_true] at hpath
      subst hpath
      decide)

/-- C12 (nested-message block placement): the text written for a location message has the
`### Nested Messages` subheading exactly when the message has a nested message.  Without
nested messages the field lines of the message come directly after the comment lines;
with nested messages the subheading follows the comment lines, then for each nested
message in order `#### <nested name>`, `#### Fields` and its field lines, and the field
lines of the message itself come after that whole block. -/
theorem nested_block_placement (labelString : FieldDescriptorProto_Label → String)
    (buf : String) (locationMessage : LocationMessage) :
    (locationMessage.Message.NestedType = [] →
      writeMessage labelString buf locationMessage =
        buf ++ "\n## " ++ locationMessage.Message.GetName ++ "\n" ++ "### Leading Comments\n" ++
          String.join (locationMessage.LeadingComments.map fun comment => comment ++ "\n") ++
          String.join (locationMessage.Message.Field.map fun field =>
            field.GetName ++ " - " ++ labelString field.GetLabel ++ "\n")) ∧
    (locationMessage.Message.NestedType ≠ [] →
      writeMessage labelString buf locationMessage =
        buf ++ "\n## " ++ locationMessage.Message.GetName ++ "\n" ++ "### Leading Comments\n" ++
          String.join (locationMessage.LeadingComments.map fun comment => comment ++ "\n") ++
          "### Nested Messages\n" ++
          String.join (locationMessage.Message.NestedType.map fun nestedMessage =>
            "#### " ++ nestedMessage.GetName ++ "\n" ++ "#### Fields\n" ++
              String.join (nestedMessage.Field.map fun field =>
                field.GetName ++ " - " ++ labelString field.GetLabel ++ "\n")) ++
          String.join (locationMessage.Message.Field.map fun field =>
            field.GetName ++ " - " ++ labelString field.GetLabel ++ "\n")) := by
  constructor
  · intro hn
    rw [writeMessage_eq]
    simp only [hn, List.length_nil, gt_iff_lt, Nat.lt_irrefl, if_false, String.append_assoc,
      String.empty_append]
  · intro hn
    have hpos : locationMessage.Message.NestedType.length > 0 := List.length_pos.mpr hn
    rw [writeMessage_eq]
    simp only [hpos, if_true, String.append_assoc]

/-- C13 (degenerate input is not an error): for a file none of whose locations names a
message (path of length 2 with first segment 4), the loop over the file returns the empty
list without panicking, `getLocationMessage` stores that empty list under the file name,
and the document built from it has the title line `# <output name>` followed by a
newline as its whole body. -/
theorem degenerate_input (labelString : FieldDescriptorProto_Label → String)
    (rangeOrder : GoMap (List LocationMessage) → List (String × List LocationMessage))
    (resp : CodeGeneratorResponse) (filename : String) (param : Option String)
    (proto : FileDescriptorProto) (horder : IsRangeOrder rangeOrder)
    (hnone : ∀ location ∈ GetLocation proto.GetSourceCodeInfo,
      isMessageLocation location = false) :
    fileLocationMessages proto = some [] ∧
      getLocationMessage ⟨[filename], param, [proto]⟩ = some [(filename, [])] ∧
      markdownContent labelString filename [] = "# " ++ outfileName filename ++ "\n" ∧
      generateCode labelString rangeOrder ⟨[filename], param, [proto]⟩ resp =
        some ⟨[⟨some (outfileName filename), some ("# " ++ outfileName filename ++ "\n")⟩]⟩ := by
  have hfile : fileLocationMessages proto = some [] := by
    obtain ⟨r, hr, hall⟩ := locationLoop_resolves proto (GetLocation proto.GetSourceCodeInfo)
      (by
        intro location hmem i hpath
        have := hnone location hmem
        rw [(isMessageLocation_iff location).mpr ⟨i, hpath⟩] at this
        exact absurd this (by simp)) []
    have hfilter : (GetLocation proto.GetSourceCodeInfo).filter isMessageLocation = [] := by
      rw [List.filter_eq_nil_iff]
      intro location hmem
      simp [hnone location hmem]
    rw [hfilter] at hall
    cases hall
    exact hr
  have hget : getLocationMessage ⟨[filename], param, [proto]⟩ = some [(filename, [])] := by
    simp only [getLocationMessage, fileLoop, List.getElem?_cons_zero, hfile]
    rfl
  have hbody : markdownContent labelString filename [] = "# " ++ outfileName filename ++ "\n" := by
    simp [markdownContent]
  refine ⟨hfile, hget, hbody, ?_⟩
  unfold generateCode generateMessageMarkdown
  rw [hget]
  simp only [List.perm_singleton.mp (horder [(filename, [])]), List.foldl_cons, List.foldl_nil,
    CreateMarkdownFile, List.nil_append, hbody]

/-- Witness of C13: `Person.proto` with only a location of the whole file (empty path)
and a location of a field. -/
theorem degenerate_input_witness :
    fileLocationMessages ⟨some "Person.proto", [personMessage],
        some ⟨[⟨[], none, none⟩, ⟨[4, 0, 2, 0], some "a field\n", none⟩]⟩⟩ = some [] ∧
      getLocationMessage ⟨["Person.proto"], none, [⟨some "Person.proto", [personMessage],
        some ⟨[⟨[], none, none⟩, ⟨[4, 0, 2, 0], some "a field\n", none⟩]⟩⟩]⟩ =
          some [("Person.proto", [])] ∧
      markdownContent labelText "Person.proto" [] = "# " ++ outfileName "Person.proto" ++ "\n" ∧
      generateCode labelText id ⟨["Person.proto"], none, [⟨some "Person.proto", [personMessage],
        some ⟨[⟨[], none, none⟩, ⟨[4, 0, 2, 0], some "a field\n", none⟩]⟩⟩]⟩ ⟨[]⟩ =
        some ⟨[⟨some (outfileName "Person.proto"),
          some ("# " ++ outfileName "Person.proto" ++ "\n")⟩]⟩ :=
  degenerate_input labelText id ⟨[]⟩ "Person.proto" none
    ⟨some "Person.proto", [personMessage],
      some ⟨[⟨[], none, none⟩, ⟨[4, 0, 2, 0], some "a field\n", none⟩]⟩⟩
    (fun _ => List.Perm.refl _) (by
      intro location hmem
      simp only [GetLocation, FileDescriptorProto.GetSourceCodeInfo, List.mem_cons,
        List.mem_singleton, List.not_mem_nil, or_false] at hmem
      rcases hmem with rfl | rfl <;> decide)

/-- C14 (single-level nesting): two lists of location messages that are identical except
for the nested-type lists of the nested messages give the same document: the same name
and the same body. -/
theorem single_level_nesting (labelString : FieldDescriptorProto_Label → String)
    (resp : CodeGeneratorResponse) (filename : String) (ms1 ms2 : List LocationMessage)
    (h : List.Forall₂ SameUpToDeeperNesting ms1 ms2) :
    CreateMarkdownFile labelString resp filename ms1 =
      CreateMarkdownFile labelString resp filename ms2 := by
  have hsections := forall₂_map_eq SameUpToDeeperNesting
    (fun lm => writeMessage labelString "" lm) (fun lm => writeMessage labelString "" lm)
    (writeMessage_sameUpToDeeperNesting labelString) ms1 ms2 h
  unfold CreateMarkdownFile
  rw [markdownContent_eq, markdownContent_eq, hsections]

/-- Witness of C14: `Outer` nesting `Inner` nesting `Deep`, against the same message with
`Deep` removed. -/
theorem single_level_nesting_witness :
    CreateMarkdownFile labelText ⟨[]⟩ "x.proto" [⟨personLocation, deepMessage, ["c"]⟩] =
      CreateMarkdownFile labelText ⟨[]⟩ "x.proto" [⟨personLocation, shallowMessage, ["c"]⟩] :=
  single_level_nesting labelText ⟨[]⟩ "x.proto" [⟨personLocation, deepMessage, ["c"]⟩]
    [⟨personLocation, shallowMessage, ["c"]⟩]
    (List.Forall₂.cons
      ⟨rfl, rfl, rfl, rfl, List.Forall₂.cons ⟨rfl, rfl⟩ List.Forall₂.nil⟩ List.Forall₂.nil)

/-- C15 (parameter string convention): the loop of `main` over the comma-separated entries
never panics, and the map it builds has pairwise distinct keys; `k` is a key exactly when
some entry contains `=` and has `k` as the text before its first `=`; an entry without
`=` leaves the map unchanged; and `k` is bound to `v` exactly when `v` is the value of the
last entry with `=` whose key is `k`. -/
theorem parameter_convention (parameters : String) :
    ∃ m, parseParameters parameters = some m ∧ (m.map Prod.fst).Nodup ∧
      (∀ k, k ∈ m.map Prod.fst ↔
        ∃ element ∈ Split parameters ',', '=' ∈ element.data ∧ entryKey element = k) ∧
      (∀ (m0 : GoMap String) (element : String), '=' ∉ element.data →
        parameterStep m0 element = some m0) ∧
      (∀ k v, (k, v) ∈ m ↔
        ∃ pre element post, Split parameters ',' = pre ++ element :: post ∧
          '=' ∈ element.data ∧ entryKey element = k ∧ entryValue element = v ∧
          ∀ later ∈ post, '=' ∈ later.data → entryKey later ≠ k) ∧
      parseParameters "a=1,b,a=2" = some [("a", "2")] := by
  obtain ⟨m, hm, hnd, hkeys, hmem⟩ := parameterLoop_spec (Split parameters ',') []
  refine ⟨m, hm, hnd (by simp), ?_, parameterStep_plain, ?_, by decide⟩
  · intro k
    rw [hkeys k]
    simp
  · intro k v
    rw [hmem k v]
    simp

/-- C16, counterexample: for the request of `a.proto` then `b.proto`, a range that visits
the map of results in the reverse of the stored order is a legal one, and with it
`generateMessageMarkdown` appends `b.md` before `a.md`. -/
theorem output_order_counterexample :
    IsRangeOrder (fun m : GoMap (List LocationMessage) => m.reverse) ∧
      twoFileRequest.FileToGenerate = ["a.proto", "b.proto"] ∧
      generateMessageMarkdown labelText (fun m => m.reverse) twoFileRequest ⟨[]⟩ =
        some ⟨[⟨some "b.md", some "# b.md\n\n## B\n### Leading Comments\nabout B\n"⟩,
          ⟨some "a.md", some "# a.md\n\n## A\n### Leading Comments\nabout A\n"⟩]⟩ :=
  ⟨fun m => List.reverse_perm m, rfl, by decide⟩

/-- C16, amended: for a request that meets the host contract, `generateMessageMarkdown`
keeps the files already in the response and appends one file per entry of the map of
results, in the order in which the range visits the map; the names of the appended files
are the rewritings of the distinct requested names in some order, which need not be the
order of `FileToGenerate`. -/
theorem output_files_in_range_order (labelString : FieldDescriptorProto_Label → String)
    (rangeOrder : GoMap (List LocationMessage) → List (String × List LocationMessage))
    (req : CodeGeneratorRequest) (resp : CodeGeneratorResponse)
    (horder : IsRangeOrder rangeOrder) (hc : HostContract req) :
    ∃ m, getLocationMessage req = some m ∧
      generateMessageMarkdown labelString rangeOrder req resp =
        some ⟨resp.File ++ (rangeOrder m).map fun entry =>
          ⟨some (outfileName entry.1), some (markdownContent labelString entry.1 entry.2)⟩⟩ ∧
      List.Perm ((rangeOrder m).map fun entry => some (outfileName entry.1))
        (req.FileToGenerate.dedup.map fun f => some (outfileName f)) := by
  obtain ⟨m, hm⟩ := getLocationMessage_isSome req hc
  obtain ⟨hnd, hmem⟩ := fileLoop_keys req req.FileToGenerate 0 [] m (by simp) hm
  refine ⟨m, hm, ?_, ?_⟩
  · unfold generateMessageMarkdown
    rw [hm]
    simp only [Option.some.injEq]
    have hfiles := foldl_CreateMarkdownFile labelString (rangeOrder m) resp
    generalize (rangeOrder m).foldl
      (fun resp entry => CreateMarkdownFile labelString resp entry.1 entry.2) resp = out at hfiles
    cases out
    simp only at hfiles
    rw [hfiles]
  · have hkeys : List.Perm (m.map Prod.fst) req.FileToGenerate.dedup := by
      rw [List.perm_ext_iff_of_nodup hnd (List.nodup_dedup _)]
      intro x
      rw [hmem x, List.mem_dedup]
      simp
    have h1 : List.Perm ((rangeOrder m).map fun entry => some (outfileName entry.1))
        ((m.map Prod.fst).map fun f => some (outfileName f)) := by
      rw [List.map_map]
      exact (horder m).map _
    exact h1.trans (hkeys.map _)

/-- Witness of the amended C16 on the request of `a.proto` then `b.proto`, with the range
in reverse order. -/
theorem output_files_in_range_order_witness :
    ∃ m, getLocationMessage twoFileRequest = some m ∧
      generateMessageMarkdown labelText (fun m => m.reverse) twoFileRequest ⟨[]⟩ =
        some ⟨[] ++ (m.reverse).map fun entry =>
          ⟨some (outfileName entry.1), some (markdownContent labelText entry.1 entry.2)⟩⟩ ∧
      List.Perm ((m.reverse).map fun entry => some (outfileName entry.1))
        (twoFileRequest.FileToGenerate.dedup.map fun f => some (outfileName f)) :=
  output_files_in_range_order labelText (fun m => m.reverse) twoFileRequest ⟨[]⟩
    (fun m => List.reverse_perm m)
    ⟨by decide, by
      intro k proto hk hfile location hmem i hpath
      simp only [twoFileRequest, List.length_cons, List.length_nil] at hk
      have hcases : k = 0 ∨ k = 1 := by omega
      rcases hcases with rfl | rfl
      · simp only [twoFileRequest, List.getElem?_cons_zero, Option.some.injEq] at hfile
        subst hfile
        simp only [importedFile, GetLocation, FileDescriptorProto.GetSourceCodeInfo,
          List.mem_singleton] at hmem
        subst hmem
        simp only [SourceCodeInfo_Location.GetPath, List.cons.injEq, true_and, and_true] at hpath
        subst hpath
        decide
      · simp only [twoFileRequest, List.getElem?_cons_succ, List.getElem?_cons_zero,
          Option.some.injEq] at hfile
        subst hfile
        simp only [importingFile, GetLocation, FileDescriptorProto.GetSourceCodeInfo,
          List.mem_singleton] at hmem
        subst hmem
        simp only [SourceCodeInfo_Location.GetPath, List.cons.injEq, true_and, and_true] at hpath
        subst hpath
        decide⟩

/-- C17, counterexample: in the request for `b.proto`, which imports a file `a.proto`
without locations, the descriptor of `b.proto` has one location of path length 2 and
first segment 4, in range, pointing at `B`; yet the list the map holds under `b.proto` is
empty: it has no entry for that location.  Likewise when only `a.proto` is requested and
the descriptor of `b.proto` follows it in `ProtoFile`: the map has no list for the file
that is not requested. -/
theorem coverage_by_locations_counterexample :
    bareImportRequest.FileToGenerate = ["b.proto"] ∧
      bareImportRequest.ProtoFile = [bareFile, importingFile] ∧
      importingFile.GetName = "b.proto" ∧
      (GetLocation importingFile.GetSourceCodeInfo).filter isMessageLocation =
        [⟨[4, 0], some "about B\n", none⟩] ∧
      importingFile.GetMessageType.length = 1 ∧
      getLocationMessage bareImportRequest = some [("b.proto", [])] ∧
      getLocationMessage ⟨["a.proto"], none, [bareFile, importingFile]⟩ =
        some [("a.proto", [])] :=
  ⟨rfl, rfl, by decide, by decide, rfl, rfl, rfl⟩

/-- C17, amended (coverage is driven by locations): for a request that meets the host
contract and a file descriptor that stands in `ProtoFile` at the position where its own
name stands in `FileToGenerate` (the name not being listed again later), the map returned
by `getLocationMessage` holds under the file's name the list produced by the loop over
the descriptor, and that list has exactly one entry per location of path length 2 and
first segment 4, in the order of the locations, each entry holding its location and the
message that location points at; so the entries whose location points at index `j` are
as many as the locations of path `[4, j]` (none when no location points at `j`); and
every entry of the map is the list produced for the descriptor at the position of its
name. -/
theorem coverage_by_locations (req : CodeGeneratorRequest) (k : Nat)
    (proto : FileDescriptorProto) (hc : HostContract req)
    (hname : req.FileToGenerate[k]? = some proto.GetName)
    (hfile : req.ProtoFile[k]? = some proto)
    (hlast : proto.GetName ∉ req.FileToGenerate.drop (k + 1)) :
    ∃ m lms, getLocationMessage req = some m ∧ (m.map Prod.fst).Nodup ∧
      (proto.GetName, lms) ∈ m ∧
      fileLocationMessages proto = some lms ∧
      List.Forall₂ (Resolves proto)
        ((GetLocation proto.GetSourceCodeInfo).filter isMessageLocation) lms ∧
      lms.length = ((GetLocation proto.GetSourceCodeInfo).filter isMessageLocation).length ∧
      (∀ j : Int, lms.countP (fun lm => decide (lm.Location.GetPath = [4, j])) =
        (GetLocation proto.GetSourceCodeInfo).countP
          (fun location => decide (location.GetPath = [4, j]))) ∧
      (∀ entry ∈ m, ∃ (k2 : Nat) (p : FileDescriptorProto),
        req.FileToGenerate[k2]? = some entry.1 ∧ req.ProtoFile[k2]? = some p ∧
          fileLocationMessages p = some entry.2) := by
  obtain ⟨m, lms, hm, hnd, hmem, hlms, hall⟩ :=
    getLocationMessage_stores req k proto hc hname hfile hlast
  exact ⟨m, lms, hm, hnd, hmem, hlms, hall, hall.length_eq.symm,
    resolves_count proto _ lms hall, getLocationMessage_entries req m hm⟩

/-- Witness of the amended C17 on the request for `Person.proto`. -/
theorem coverage_by_locations_witness :
    ∃ m lms, getLocationMessage personRequest = some m ∧ (m.map Prod.fst).Nodup ∧
      (personFile.GetName, lms) ∈ m ∧
      fileLocationMessages personFile = some lms ∧
      List.Forall₂ (Resolves personFile)
        ((GetLocation personFile.GetSourceCodeInfo).filter isMessageLocation) lms ∧
      lms.length =
        ((GetLocation personFile.GetSourceCodeInfo).filter isMessageLocation).length ∧
      (∀ j : Int, lms.countP (fun lm => decide (lm.Location.GetPath = [4, j])) =
        (GetLocation personFile.GetSourceCodeInfo).countP
          (fun location => decide (location.GetPath = [4, j]))) ∧
      (∀ entry ∈ m, ∃ (k2 : Nat) (p : FileDescriptorProto),
        personRequest.FileToGenerate[k2]? = some entry.1 ∧
          personRequest.ProtoFile[k2]? = some p ∧
          fileLocationMessages p = some entry.2) :=
  coverage_by_locations personRequest 0 personFile personRequest_hostContract rfl rfl
    (by simp [personRequest])

/-- C18 (comment emission round trip): for every leading-comments text `t`, the block
written for the extracted comment lines, each followed by a newline, is the prefix of `t`
up to and including its last newline: `t` is that block followed by a rest without
newline, and the block is empty or ends with a newline.  So the block is `t` itself when
`t` is empty or ends with a newline, and it is empty when `t` has no newline. -/
theorem comment_round_trip (t : String) :
    ∃ rest : String, '\n' ∉ rest.data ∧
      writeComments "" (Split t '\n').dropLast ++ rest = t ∧
      (writeComments "" (Split t '\n').dropLast = "" ∨
        ∃ p : String, writeComments "" (Split t '\n').dropLast = p ++ "\n") ∧
      ((t = "" ∨ t.data.getLast? = some '\n') →
        writeComments "" (Split t '\n').dropLast = t) ∧
      ('\n' ∉ t.data → writeComments "" (Split t '\n').dropLast = "") := by
  obtain ⟨rest, hrest, hjoin, hend⟩ := splitLoop_round_trip "" t.data (by simp)
  have hblock : writeComments "" (Split t '\n').dropLast =
      String.join ((splitLoop '\n' "" t.data).dropLast.map fun comment => comment ++ "\n") := by
    rw [writeComments_eq, String.empty_append]
    rfl
  rw [← hblock] at hjoin hend
  have ht : writeComments "" (Split t '\n').dropLast ++ rest = t := by
    rw [hjoin, String.empty_append]
  have hdata : (writeComments "" (Split t '\n').dropLast).data ++ rest.data = t.data := by
    rw [← String.data_append, ht]
  refine ⟨rest, hrest, ht, hend, ?_, ?_⟩
  · intro hcase
    have hnil : rest.data = [] := by
      rcases hcase with h0 | hlast
      · rw [h0] at hdata
        exact (List.append_eq_nil.mp hdata).2
      · by_contra hne
        rw [← hdata, List.getLast?_append_of_ne_nil _ hne] at hlast
        exact hrest (List.mem_of_getLast?_eq_some hlast)
    apply String.ext
    rw [← hdata, hnil, List.append_nil]
  · intro hno
    rcases hend with h0 | ⟨p, hp⟩
    · exact h0
    · exfalso
      apply hno
      rw [← hdata, hp]
      simp

/-- C19 (the rewritten name is free of the source extension): the output name holds no
occurrence of `".proto"`, and rewriting an output name again returns it unchanged. -/
theorem output_name_free_of_extension (filename : String) :
    ¬ ".proto".data <:+: (outfileName filename).data ∧
      outfileName (outfileName filename) = outfileName filename := by
  have hclean := outfileName_clean filename
  refine ⟨hclean, ?_⟩
  show String.mk (replaceLoop ".proto".data ".md".data 0 (outfileName filename).data) =
    outfileName filename
  rw [replaceLoop_clean _ _ _ hclean]

/-- C20 (index totality under the host contract): when `ProtoFile` is at least as long as
`FileToGenerate` and, in every descriptor, every location of path length 2 with first
segment 4 has its second segment within the top-level message list, `getLocationMessage`
returns a map; and for every text the split on the newline has at least one piece, so
the slice dropping the last piece is in range. -/
theorem index_total (req : CodeGeneratorRequest)
    (hlen : req.FileToGenerate.length ≤ req.ProtoFile.length)
    (hrange : ∀ proto ∈ req.ProtoFile, ∀ location ∈ GetLocation proto.GetSourceCodeInfo,
      ∀ i : Int, location.GetPath = [4, i] →
        0 ≤ i ∧ i < (proto.GetMessageType.length : Int)) :
    (∃ m, getLocationMessage req = some m) ∧
      (∀ s : String, 1 ≤ (Split s '\n').length ∧
        sliceDropLast (Split s '\n') = some (Split s '\n').dropLast) := by
  constructor
  · apply getLocationMessage_isSome
    refine ⟨hlen, ?_⟩
    intro k proto _ hfile
    exact hrange proto (List.getElem?_mem hfile)
  · intro s
    exact ⟨by rw [Split_length]; omega, sliceDropLast_Split s '\n'⟩

/-- Witness of C20 on the request for `Person.proto`. -/
theorem index_total_witness :
    (∃ m, getLocationMessage personRequest = some m) ∧
      (∀ s : String, 1 ≤ (Split s '\n').length ∧
        sliceDropLast (Split s '\n') = some (Split s '\n').dropLast) :=
  index_total personRequest (by decide) (by
    intro proto hproto location hmem i hpath
    simp only [personRequest, List.mem_singleton] at hproto
    subst hproto
    simp only [personFile, GetLocation, FileDescriptorProto.GetSourceCodeInfo,
      List.mem_singleton] at hmem
    subst hmem
    simp only [personLocation, SourceCodeInfo_Location.GetPath, List.cons.injEq,
      true_and, and_true] at hpath
    subst hpath
    decide)

end GoExample
